import Mathlib

/-!
Verification of the MultiPhase mixture model of Cantera
(src/Cantera/src/MultiPhase.h).

The repository contains only the class header (declarations and a few
inline bodies); the method bodies live outside the excerpt.  In line with
the specification, we give a shallow embedding of the mixture data model
and of its operations.  Machine floating point (`doublereal`) is modelled
by the rationals `ℚ`, so every arithmetic identity below is exact.
Inline bodies present in the header (`nAtoms`, `setPhaseMoles`, `tempOK`,
`phaseMoles`, accessors) are translated directly; every operation whose
body is absent carries a doc comment starting `Modelled from the spec:`.
-/

namespace Cantera

/-- The C++ scalar type `doublereal`, modelled as `ℚ`. -/
abbrev doublereal := ℚ

/-- Error taxonomy of the spec (section 7): `InvalidStateError`,
`InvalidInputError`, `SingularBasisError`, and `ConvergenceError`
carrying the last achieved residual. -/
inductive CanteraError where
  | InvalidStateError : CanteraError
  | InvalidInputError : CanteraError
  | SingularBasisError : CanteraError
  | ConvergenceError (lastErr : ℚ) : CanteraError
  deriving DecidableEq, Repr

/-- The external phase capability (`ThermoPhase`): species and element
names, per-species atom counts (row `ik` lists the counts of the phase's
local elements in local species `ik`), a stoichiometric-phase flag, the
valid temperature range, the phase's own current mole fractions, and the
chemical potentials it reports (plain and standard-state). -/
structure ThermoPhase where
  speciesNames : List String
  elementNames : List String
  atoms : List (List ℚ)
  stoich : Bool
  tMin : ℚ
  tMax : ℚ
  moleFractions : List ℚ
  chemPotentials : List ℚ
  stdChemPotentials : List ℚ
  deriving DecidableEq, Repr

/-- Number of species of one phase. -/
def ThermoPhase.nsp (p : ThermoPhase) : Nat := p.speciesNames.length

/-- The `MultiPhase` object: phase list, per-phase mole amounts
(`m_moles`), global mole-fraction vector, global indexing data
(`m_spphase`, `m_spstart`, element and species names), the global atom
matrix `m_atoms` (row = global element, column = global species),
counts, temperature, pressure, the `m_init` flag, the cached per-phase
temperature-validity flags, and the global valid-temperature bounds. -/
structure MultiPhase where
  m_phase : List ThermoPhase
  m_moles : List ℚ
  m_moleFractions : List ℚ
  m_spphase : List Nat
  m_spstart : List Nat
  m_enames : List String
  m_snames : List String
  m_atoms : List (List ℚ)
  m_np : Nat
  m_nel : Nat
  m_nsp : Nat
  m_temp : ℚ
  m_press : ℚ
  m_init : Bool
  m_temp_OK : List Bool
  m_Tmin : ℚ
  m_Tmax : ℚ
  deriving DecidableEq, Repr

namespace MultiPhase

/-- `nElements()` — from the header: `return int(m_nel);`. -/
def nElements (mp : MultiPhase) : Nat := mp.m_nel

/-- `nSpecies()` — from the header: `return int(m_nsp);`. -/
def nSpecies (mp : MultiPhase) : Nat := mp.m_nsp

/-- `nPhases()` — from the header: `return m_np;`. -/
def nPhases (mp : MultiPhase) : Nat := mp.m_np

/-- `temperature()` — from the header: `return m_temp;`. -/
def temperature (mp : MultiPhase) : ℚ := mp.m_temp

/-- `pressure()` — from the header: `return m_press;`. -/
def pressure (mp : MultiPhase) : ℚ := mp.m_press

/-- `phaseMoles(n)` — from the header: `return m_moles[n];`. -/
def phaseMoles (mp : MultiPhase) (n : Nat) : ℚ := mp.m_moles.getD n 0

/-- `setPhaseMoles(n, moles)` — from the header: `m_moles[n] = moles;`. -/
def setPhaseMoles (mp : MultiPhase) (n : Nat) (moles : ℚ) : MultiPhase :=
  { mp with m_moles := mp.m_moles.set n moles }

/-- `moleFraction(kGlob)` — from the header: `return m_moleFractions[kGlob];`. -/
def moleFraction (mp : MultiPhase) (kGlob : Nat) : ℚ := mp.m_moleFractions.getD kGlob 0

/-- `speciesPhaseIndex(kGlob)` — from the header: `return m_spphase[kGlob];`. -/
def speciesPhaseIndex (mp : MultiPhase) (kGlob : Nat) : Nat := mp.m_spphase.getD kGlob 0

/-- `speciesIndex(k, p)` — from the header: `return m_spstart[p] + k;`. -/
def speciesIndex (mp : MultiPhase) (k p : Nat) : Nat := mp.m_spstart.getD p 0 + k

/-- `tempOK(p)` — from the header: `return m_temp_OK[p];`. -/
def tempOK (mp : MultiPhase) (p : Nat) : Bool := mp.m_temp_OK.getD p false

/-- Entry `m_atoms(mGlob, kGlob)` of the global atom matrix. -/
def atomsAt (mp : MultiPhase) (mGlob kGlob : Nat) : ℚ :=
  (mp.m_atoms.getD mGlob []).getD kGlob 0

/-- The per-phase species counts, in phase order. -/
def sizesOf (mp : MultiPhase) : List Nat := mp.m_phase.map ThermoPhase.nsp

end MultiPhase

/-- `m_spphase` layout: phase indices, `c` copies of each phase index in
phase order, starting at phase `i`. -/
def spphaseFrom (i : Nat) : List Nat → List Nat
  | [] => []
  | c :: cs => List.replicate c i ++ spphaseFrom (i + 1) cs

/-- `m_spstart` layout: the running offset of the first species of each
phase, starting at offset `s`. -/
def spstartFrom (s : Nat) : List Nat → List Nat
  | [] => []
  | c :: cs => s :: spstartFrom (s + c) cs

/-- Atom count of the element named `nm` in local species `ik` of phase
`p`; zero when the phase does not contain that element. -/
def phaseAtom (p : ThermoPhase) (nm : String) (ik : Nat) : ℚ :=
  match p.elementNames.findIdx? (· == nm) with
  | some j => (p.atoms.getD ik []).getD j 0
  | none => 0

namespace MultiPhase

/-- Modelled from the spec: `updatePhases` recomputes the cached
temperature-validity flags: a phase is flagged valid when it is
stoichiometric, or when the mixture temperature lies within the phase's
valid range (spec sections 4.1 and 9: the flags are a cache recomputed by
the synchronization step whenever temperature or pressure is set). -/
def updatePhases (mp : MultiPhase) : MultiPhase :=
  { mp with
    m_temp_OK := mp.m_phase.map fun p =>
      p.stoich || (decide (p.tMin ≤ mp.m_temp) && decide (mp.m_temp ≤ p.tMax)) }

/-- `setTemperature(T)` — from the header: `m_temp = T; updatePhases();`. -/
def setTemperature (mp : MultiPhase) (T : ℚ) : MultiPhase :=
  updatePhases { mp with m_temp := T }

/-- `setPressure(P)` — from the header: `m_press = P; updatePhases();`. -/
def setPressure (mp : MultiPhase) (P : ℚ) : MultiPhase :=
  updatePhases { mp with m_press := P }

/-- Modelled from the spec: `init()` finalizes the mixture (spec 4.1).
It computes the global element set as the union of each phase's elements
by name (deduplicated), concatenates the species names, assigns the
per-phase global index offsets (`m_spstart`) and owning phases
(`m_spphase`), builds the atom matrix by querying each phase's
per-species atom counts, computes the valid-temperature bounds over
non-stoichiometric phases only, refreshes the temperature-validity
cache, and sets `m_init`. -/
def init (mp : MultiPhase) : MultiPhase :=
  let enames := (mp.m_phase.map ThermoPhase.elementNames).flatten.dedup
  let snames := (mp.m_phase.map ThermoPhase.speciesNames).flatten
  let sizes := mp.m_phase.map ThermoPhase.nsp
  let solnPhases := mp.m_phase.filter fun p => !p.stoich
  updatePhases
    { mp with
      m_enames := enames
      m_snames := snames
      m_nel := enames.length
      m_nsp := snames.length
      m_np := mp.m_phase.length
      m_spstart := spstartFrom 0 sizes
      m_spphase := spphaseFrom 0 sizes
      m_atoms := enames.map fun nm =>
        (mp.m_phase.map fun p => (List.range p.nsp).map (phaseAtom p nm)).flatten
      m_Tmin := solnPhases.foldl (fun a p => max a p.tMin) 0
      m_Tmax := solnPhases.foldl (fun a p => min a p.tMax) 100000
      m_init := true }

/-- `nAtoms(kGlob, mGlob)` — from the header:
`if (!m_init) init(); return m_atoms(mGlob, kGlob);`.
The pair returns the value together with the possibly-updated object. -/
def nAtoms (mp : MultiPhase) (kGlob mGlob : Nat) : ℚ × MultiPhase :=
  let mp2 := if mp.m_init then mp else mp.init
  (mp2.atomsAt mGlob kGlob, mp2)

/-- Modelled from the spec: `addPhase(p, moles)` appends the phase,
fails with `InvalidStateError` if `init()` was already called, records
the initial moles and snapshots the phase's current mole fractions
(spec 4.1). -/
def addPhase (mp : MultiPhase) (p : ThermoPhase) (moles : ℚ) :
    Except CanteraError MultiPhase :=
  if mp.m_init then .error .InvalidStateError
  else .ok
    { mp with
      m_phase := mp.m_phase ++ [p]
      m_moles := mp.m_moles ++ [moles]
      m_moleFractions := mp.m_moleFractions ++ p.moleFractions
      m_np := mp.m_np + 1 }

/-- Modelled from the spec: the bulk variant `addPhases(list, molesList)`
behaves as repeated single adds in order (spec 4.1). -/
def addPhases (mp : MultiPhase) (ps : List (ThermoPhase × ℚ)) :
    Except CanteraError MultiPhase :=
  ps.foldlM (fun m q => m.addPhase q.1 q.2) mp

/-- The state a caller observes after an `addPhase` call: the updated
object on success, the unchanged receiver when the call failed. -/
def addPhaseState (mp : MultiPhase) (p : ThermoPhase) (moles : ℚ) : MultiPhase :=
  (mp.addPhase p moles).toOption.getD mp

end MultiPhase

/-- A concrete phase used to evaluate the theorems: two gas species over
two elements. -/
def phA : ThermoPhase :=
  { speciesNames := ["H2", "O2"]
    elementNames := ["H", "O"]
    atoms := [[2, 0], [0, 2]]
    stoich := false
    tMin := 300
    tMax := 1000
    moleFractions := [1/2, 1/2]
    chemPotentials := [10, 20]
    stdChemPotentials := [11, 21] }

/-- A concrete one-species stoichiometric phase. -/
def phB : ThermoPhase :=
  { speciesNames := ["C"]
    elementNames := ["C"]
    atoms := [[1]]
    stoich := true
    tMin := 0
    tMax := 5000
    moleFractions := [1]
    chemPotentials := [30]
    stdChemPotentials := [31] }

/-- A concrete mixture before `init()`. -/
def mp0 : MultiPhase :=
  { m_phase := [phA, phB]
    m_moles := [1, 1]
    m_moleFractions := [1/2, 1/2, 1]
    m_spphase := []
    m_spstart := []
    m_enames := []
    m_snames := []
    m_atoms := []
    m_np := 2
    m_nel := 0
    m_nsp := 0
    m_temp := 500
    m_press := 101325
    m_init := false
    m_temp_OK := []
    m_Tmin := 0
    m_Tmax := 100000 }

/-- The concrete mixture after `init()`. -/
def mpI : MultiPhase := mp0.init

/-- Per-phase normalization of a slice of mole numbers: fraction =
species moles / phase total moles, and the fractions of a phase whose
total is zero are defined as zero (spec 4.1, `setMoles`). -/
def normalizeSlice (l : List ℚ) : List ℚ :=
  l.map fun x => if l.sum = 0 then 0 else x / l.sum

/-- Per-phase totals of the global mole vector, one entry per phase. -/
def sliceTotals : List Nat → List ℚ → List ℚ
  | [], _ => []
  | c :: cs, n => (n.take c).sum :: sliceTotals cs (n.drop c)

/-- The per-phase blocks of the recomputed global mole-fraction vector. -/
def fracBlocks : List Nat → List ℚ → List (List ℚ)
  | [], _ => []
  | c :: cs, n => normalizeSlice (n.take c) :: fracBlocks cs (n.drop c)

/-- The slice of a global vector `v` that belongs to phase `p`, for the
per-phase species counts `cs`. -/
def nthSlice (cs : List Nat) (v : List ℚ) (p : Nat) : List ℚ :=
  (v.drop ((cs.take p).sum)).take (cs.getD p 0)

/-- Species mole numbers, phase block by phase block: each phase's
mole-fraction slice scaled by that phase's total moles. -/
def sliceMoles : List Nat → List ℚ → List ℚ → List ℚ
  | [], _, _ => []
  | c :: cs, moles, fr =>
    (fr.take c).map (· * moles.headD 0) ++ sliceMoles cs moles.tail (fr.drop c)

namespace MultiPhase

/-- `speciesName(kGlob)` — the global species name table. -/
def speciesName (mp : MultiPhase) (kGlob : Nat) : String := mp.m_snames.getD kGlob ""

/-- Modelled from the spec: `setMoles(n)` stores the raw per-species
mole numbers by recomputing the per-phase totals and the global mole
fractions consistently: fraction = species moles / phase total moles,
and the fractions of a phase whose total is zero are defined as zero,
not NaN (spec 4.1). -/
def setMoles (mp : MultiPhase) (n : List ℚ) : MultiPhase :=
  { mp with
    m_moles := sliceTotals mp.sizesOf n
    m_moleFractions := (fracBlocks mp.sizesOf n).flatten }

/-- Modelled from the spec: `getMoles` returns the raw per-species mole
numbers; species moles are not stored separately but derived from the
mole-fraction vector and the per-phase mole amounts (spec 3, 4.1):
each phase's fraction slice scaled by that phase's total moles. -/
def getMoles (mp : MultiPhase) : List ℚ :=
  sliceMoles mp.sizesOf mp.m_moles mp.m_moleFractions

/-- Modelled from the spec: `speciesMoles(kGlob)` = mole fraction of
`kGlob` times the total moles of its owning phase (spec 3). -/
def speciesMoles (mp : MultiPhase) (kGlob : Nat) : ℚ :=
  mp.moleFraction kGlob * mp.phaseMoles (mp.speciesPhaseIndex kGlob)

/-- Modelled from the spec: `setMolesByName` builds the global mole
vector assigning each species the amount its name is mapped to, zero
when unnamed, and hands it to `setMoles`; it fails with
`InvalidInputError` if a key names a species that does not exist in the
mixture (spec 4.1). -/
def setMolesByName (mp : MultiPhase) (xMap : List (String × ℚ)) :
    Except CanteraError MultiPhase :=
  if xMap.all (fun q => mp.m_snames.contains q.1) then
    .ok (mp.setMoles (mp.m_snames.map fun nm =>
      match xMap.find? (fun q => q.1 == nm) with
      | some q => q.2
      | none => 0))
  else .error .InvalidInputError

end MultiPhase

/-- The per-phase admissibility condition under which the mole-number
round trip is exact: every phase's slice either has a nonzero total or
is identically zero. -/
def slicesOK : List Nat → List ℚ → Prop
  | [], _ => True
  | c :: cs, n => ((n.take c).sum ≠ 0 ∨ ∀ x ∈ n.take c, x = 0) ∧ slicesOK cs (n.drop c)

/-- Rescaling a normalized slice by its total recovers the slice, when
the slice has a nonzero total or is identically zero. -/
theorem normalizeSlice_scale (l : List ℚ) (h : l.sum ≠ 0 ∨ ∀ x ∈ l, x = 0) :
    (normalizeSlice l).map (· * l.sum) = l := by
  rcases h with h | h
  · unfold normalizeSlice
    rw [List.map_map]
    have : ∀ x ∈ l, ((· * l.sum) ∘ fun x => if l.sum = 0 then 0 else x / l.sum) x = id x := by
      intro x _
      simp [Function.comp, if_neg h, div_mul_cancel₀ x h]
    rw [List.map_congr_left this, List.map_id]
  · have hs : l.sum = 0 := List.sum_eq_zero h
    unfold normalizeSlice
    rw [List.map_map]
    have : ∀ x ∈ l, ((· * l.sum) ∘ fun x => if l.sum = 0 then 0 else x / l.sum) x = id x := by
      intro x hx
      simp [Function.comp, hs, h x hx]
    rw [List.map_congr_left this, List.map_id]

/-- Reassembling the per-phase totals and fractions produced by
`setMoles` recovers the input vector slice by slice. -/
theorem sliceMoles_roundTrip (cs : List Nat) (n : List ℚ)
    (hlen : n.length = cs.sum) (hok : slicesOK cs n) :
    sliceMoles cs (sliceTotals cs n) (fracBlocks cs n).flatten = n := by
  induction cs generalizing n with
  | nil =>
    have : n = [] := List.eq_nil_of_length_eq_zero hlen
    simp [this, sliceMoles]
  | cons c cs ih =>
    obtain ⟨h1, h2⟩ := hok
    have hc : c ≤ n.length := by
      rw [hlen, List.sum_cons]; exact Nat.le_add_right _ _
    have hblock : (normalizeSlice (n.take c)).length = c := by
      simp [normalizeSlice, List.length_take, Nat.min_eq_left hc]
    have hdlen : (n.drop c).length = cs.sum := by
      simp [List.length_drop, hlen, List.sum_cons]
    simp only [sliceMoles, sliceTotals, fracBlocks, List.flatten_cons,
      List.headD_cons, List.tail_cons]
    rw [List.take_left' hblock, List.drop_left' hblock]
    rw [normalizeSlice_scale (n.take c) h1, ih (n.drop c) hdlen h2,
      List.take_append_drop]

/-- C1 counterexample: on the concrete initialized mixture, the vector
`[1, -1, 1]` (length `nSpecies()`) does not survive the
`setMoles`/`getMoles` round trip: phase 0's entries sum to zero, so its
fractions are stored as zero and read back as zero. -/
theorem setMoles_getMoles_cex :
    mpI.m_init = true ∧ ([(1:ℚ), -1, 1] : List ℚ).length = mpI.nSpecies ∧
    (mpI.setMoles [1, -1, 1]).getMoles ≠ [1, -1, 1] := by
  refine ⟨by decide, ?_, ?_⟩
  · norm_num [mpI, mp0, MultiPhase.init, MultiPhase.updatePhases, MultiPhase.nSpecies,
      phA, phB, ThermoPhase.nsp]
  · norm_num [mpI, mp0, MultiPhase.init, MultiPhase.updatePhases, MultiPhase.getMoles,
      MultiPhase.setMoles, MultiPhase.sizesOf, phA, phB, ThermoPhase.nsp,
      sliceTotals, fracBlocks, normalizeSlice, sliceMoles]

/-- C1 (amended): for an initialized mixture and a mole vector of length
`nSpecies()` in which every phase's slice has a nonzero total or is
identically zero (in particular, for every nonnegative vector),
`setMoles` followed by `getMoles` returns exactly the input vector,
including zero entries. -/
theorem setMoles_getMoles_roundTrip (mp : MultiPhase) (n : List ℚ)
    (hsz : mp.nSpecies = mp.sizesOf.sum) (hlen : n.length = mp.nSpecies)
    (hok : slicesOK mp.sizesOf n) :
    (mp.setMoles n).getMoles = n := by
  have hlen2 : n.length = mp.sizesOf.sum := by rw [hlen, hsz]
  simp only [MultiPhase.getMoles, MultiPhase.setMoles, MultiPhase.sizesOf]
  exact sliceMoles_roundTrip _ n hlen2 hok

/-- C1 witness: the round trip on the concrete mixture with the vector
`[1, 2, 1]`, which contains no zero-total phase. -/
theorem setMoles_getMoles_roundTrip_witness :
    (mpI.setMoles [1, 2, 1]).getMoles = [1, 2, 1] := by
  refine setMoles_getMoles_roundTrip mpI [1, 2, 1] ?_ ?_ ?_
  · norm_num [mpI, mp0, MultiPhase.init, MultiPhase.updatePhases, MultiPhase.nSpecies,
      MultiPhase.sizesOf, phA, phB, ThermoPhase.nsp]
  · norm_num [mpI, mp0, MultiPhase.init, MultiPhase.updatePhases, MultiPhase.nSpecies,
      phA, phB, ThermoPhase.nsp]
  · norm_num [mpI, mp0, MultiPhase.init, MultiPhase.updatePhases, MultiPhase.sizesOf,
      phA, phB, ThermoPhase.nsp, slicesOK]

/-- Reading the `p`-th slice of a flattened block list returns the
`p`-th block, provided the slice widths are the block lengths. -/
theorem nthSlice_flatten (bs : List (List ℚ)) (cs : List Nat)
    (h : bs.map List.length = cs) (p : Nat) :
    nthSlice cs bs.flatten p = bs.getD p [] := by
  induction bs generalizing cs p with
  | nil =>
    subst h
    simp [nthSlice]
  | cons b bs ih =>
    subst h
    match p with
    | 0 => simp [nthSlice, List.take_left]
    | p + 1 =>
      have hdrop : (b ++ bs.flatten).drop (b.length + ((bs.map List.length).take p).sum)
          = bs.flatten.drop (((bs.map List.length).take p).sum) := by
        rw [← List.drop_drop, List.drop_left]
      simp only [nthSlice, List.map_cons, List.flatten_cons, List.take_succ_cons,
        List.sum_cons, List.getD_cons_succ, hdrop]
      exact ih (bs.map List.length) rfl p

/-- The `p`-th block produced by `setMoles` is the normalization of the
`p`-th input slice. -/
theorem fracBlocks_getD (cs : List Nat) (n : List ℚ) (p : Nat) :
    (fracBlocks cs n).getD p [] = normalizeSlice (nthSlice cs n p) := by
  induction cs generalizing n p with
  | nil => simp [fracBlocks, nthSlice, normalizeSlice]
  | cons c cs ih =>
    match p with
    | 0 => simp [fracBlocks, nthSlice]
    | p + 1 =>
      simp only [fracBlocks, List.getD_cons_succ, nthSlice, List.take_succ_cons,
        List.sum_cons, ← List.drop_drop]
      exact ih (n.drop c) p

/-- The `p`-th entry of the per-phase totals is the sum of the `p`-th
input slice. -/
theorem sliceTotals_getD (cs : List Nat) (n : List ℚ) (p : Nat) :
    (sliceTotals cs n).getD p 0 = (nthSlice cs n p).sum := by
  induction cs generalizing n p with
  | nil => simp [sliceTotals, nthSlice]
  | cons c cs ih =>
    match p with
    | 0 => simp [sliceTotals, nthSlice]
    | p + 1 =>
      simp only [sliceTotals, List.getD_cons_succ, nthSlice, List.take_succ_cons,
        List.sum_cons, ← List.drop_drop]
      exact ih (n.drop c) p

/-- The blocks produced by `setMoles` have the per-phase species counts
as their lengths when the input has the right total length. -/
theorem fracBlocks_lengths (cs : List Nat) (n : List ℚ) (h : n.length = cs.sum) :
    (fracBlocks cs n).map List.length = cs := by
  induction cs generalizing n with
  | nil => simp [fracBlocks]
  | cons c cs ih =>
    have hc : c ≤ n.length := by
      rw [h, List.sum_cons]; exact Nat.le_add_right _ _
    have hd : (n.drop c).length = cs.sum := by
      simp [List.length_drop, h, List.sum_cons]
    simp only [fracBlocks, List.map_cons, normalizeSlice, List.length_map,
      List.length_take, Nat.min_eq_left hc, ih (n.drop c) hd]

/-- C3: after `setMoles(n)`, the stored total moles of each phase `p` is
the sum of that phase's slice of `n`; when the total is nonzero, the
stored mole-fraction slice is the input slice divided by the total; and
when the total is zero, every mole fraction of that phase is stored as
zero (the division is never performed on a zero total). -/
theorem setMoles_fraction_consistency (mp : MultiPhase) (n : List ℚ)
    (hlen : n.length = mp.sizesOf.sum) (p : Nat) :
    (mp.setMoles n).phaseMoles p = (nthSlice mp.sizesOf n p).sum ∧
    ((nthSlice mp.sizesOf n p).sum ≠ 0 →
      nthSlice mp.sizesOf (mp.setMoles n).m_moleFractions p
        = (nthSlice mp.sizesOf n p).map fun x => x / (nthSlice mp.sizesOf n p).sum) ∧
    ((nthSlice mp.sizesOf n p).sum = 0 →
      nthSlice mp.sizesOf (mp.setMoles n).m_moleFractions p
        = (nthSlice mp.sizesOf n p).map fun _ => (0:ℚ)) := by
  have hfr : nthSlice mp.sizesOf (mp.setMoles n).m_moleFractions p
      = normalizeSlice (nthSlice mp.sizesOf n p) := by
    show nthSlice mp.sizesOf (fracBlocks mp.sizesOf n).flatten p = _
    rw [nthSlice_flatten _ _ (fracBlocks_lengths _ _ hlen) p, fracBlocks_getD]
  refine ⟨?_, ?_, ?_⟩
  · show (sliceTotals mp.sizesOf n).getD p 0 = _
    exact sliceTotals_getD _ _ _
  · intro h
    rw [hfr]
    unfold normalizeSlice
    exact List.map_congr_left fun x _ => if_neg h
  · intro h
    rw [hfr]
    unfold normalizeSlice
    exact List.map_congr_left fun x _ => if_pos h

/-- C3 witness: on the concrete mixture with input `[1, -1, 1]`, phase 0
has a zero total, and its stored mole fractions are all zero. -/
theorem setMoles_fraction_consistency_witness :
    nthSlice mpI.sizesOf (mpI.setMoles [1, -1, 1]).m_moleFractions 0
      = (nthSlice mpI.sizesOf [(1:ℚ), -1, 1] 0).map (fun _ => (0:ℚ)) :=
  (setMoles_fraction_consistency mpI [1, -1, 1]
    (by norm_num [mpI, mp0, MultiPhase.init, MultiPhase.updatePhases,
      MultiPhase.sizesOf, phA, phB, ThermoPhase.nsp]) 0).2.2
    (by norm_num [mpI, mp0, MultiPhase.init, MultiPhase.updatePhases,
      MultiPhase.sizesOf, phA, phB, ThermoPhase.nsp, nthSlice])

/-- C5: `setMolesByName` succeeds when every key names a species of the
mixture, handing `setMoles` the vector that assigns each named species
its mapped amount and every unnamed species zero; it fails with
`InvalidInputError` when some key names a species that does not exist. -/
theorem setMolesByName_spec (mp : MultiPhase) (xMap : List (String × ℚ)) :
    ((∀ q ∈ xMap, q.1 ∈ mp.m_snames) →
      mp.setMolesByName xMap = Except.ok (mp.setMoles (mp.m_snames.map fun nm =>
        match xMap.find? (fun q => q.1 == nm) with
        | some q => q.2
        | none => 0)) ∧
      ∀ k, k < mp.m_snames.length →
        (mp.m_snames.map fun nm =>
          match xMap.find? (fun q => q.1 == nm) with
          | some q => q.2
          | none => 0).getD k 0
        = match xMap.find? (fun q => q.1 == mp.speciesName k) with
          | some q => q.2
          | none => 0) ∧
    ((∃ q ∈ xMap, q.1 ∉ mp.m_snames) →
      mp.setMolesByName xMap = Except.error CanteraError.InvalidInputError) := by
  constructor
  · intro hall
    have hcond : xMap.all (fun q => mp.m_snames.contains q.1) = true := by
      rw [List.all_eq_true]
      intro q hq
      exact List.elem_iff.mpr (hall q hq)
    constructor
    · unfold MultiPhase.setMolesByName
      rw [if_pos hcond]
    · intro k hk
      have hk2 : k < (mp.m_snames.map fun nm =>
          match xMap.find? (fun q => q.1 == nm) with
          | some q => q.2
          | none => 0).length := by
        rw [List.length_map]; exact hk
      rw [List.getD_eq_getElem _ _ hk2, List.getElem_map,
        MultiPhase.speciesName, List.getD_eq_getElem _ _ hk]
  · rintro ⟨q, hq, hnot⟩
    have hcond : xMap.all (fun q => mp.m_snames.contains q.1) = false := by
      rcases h : xMap.all (fun q => mp.m_snames.contains q.1) with _ | _
      · rfl
      · exact absurd (List.elem_iff.mp (List.all_eq_true.mp h q hq)) hnot
    have hcond2 : ¬ (xMap.all (fun q => mp.m_snames.contains q.1) = true) := by
      rw [hcond]; exact Bool.false_ne_true
    unfold MultiPhase.setMolesByName
    rw [if_neg hcond2]

/-- C5 witness: on the concrete mixture, a map naming only `O2`
succeeds, and a map naming an unknown species fails with
`InvalidInputError`. -/
theorem setMolesByName_spec_witness :
    mpI.setMolesByName [("O2", 2)] = Except.ok (mpI.setMoles (mpI.m_snames.map fun nm =>
      match ([("O2", (2:ℚ))] : List (String × ℚ)).find? (fun q => q.1 == nm) with
      | some q => q.2
      | none => 0)) ∧
    mpI.setMolesByName [("Xq", 1)] = Except.error CanteraError.InvalidInputError := by
  constructor
  · exact ((setMolesByName_spec mpI [("O2", 2)]).1 (by
      intro q hq
      simp only [List.mem_singleton] at hq
      subst hq
      decide)).1
  · exact (setMolesByName_spec mpI [("Xq", 1)]).2 ⟨("Xq", 1), by simp, by decide⟩

/-- Dot product of two vectors, entrywise product summed. -/
def dot (xs ys : List ℚ) : ℚ := (List.zipWith (· * ·) xs ys).sum

/-- Modelled from the spec: `elementMoles` computed as the linear
aggregation over phases (spec 4.1): for each phase, the dot product of
the atom-row slice with the phase's mole-fraction slice, scaled by the
phase's total moles, summed over all phases. -/
def elemSliced (row : List ℚ) : List Nat → List ℚ → List ℚ → ℚ
  | [], _, _ => 0
  | c :: cs, fr, moles =>
    dot (row.take c) (fr.take c) * moles.headD 0
      + elemSliced (row.drop c) cs (fr.drop c) moles.tail

/-- `elementMoles(m)`, total moles of element `m` summed over phases. -/
def MultiPhase.elementMoles (mp : MultiPhase) (m : Nat) : ℚ :=
  elemSliced (mp.m_atoms.getD m []) mp.sizesOf mp.m_moleFractions mp.m_moles

/-- `getD` into a `take` below the cut reads the original list. -/
theorem getD_take {α : Type} (l : List α) (c k : Nat) (d : α) (h : k < c) :
    (l.take c).getD k d = l.getD k d := by
  rcases Nat.lt_or_ge k l.length with hk | hk
  · have h1 : k < (l.take c).length := by
      rw [List.length_take]; exact Nat.lt_min.mpr ⟨h, hk⟩
    rw [List.getD_eq_getElem _ _ h1, List.getElem_take, List.getD_eq_getElem _ _ hk]
  · have h1 : (l.take c).length ≤ k := by
      rw [List.length_take]; exact le_trans (Nat.min_le_right _ _) hk
    rw [List.getD_eq_default _ _ h1, List.getD_eq_default _ _ hk]

/-- `getD` into a `drop` reads the original list shifted. -/
theorem getD_drop {α : Type} (l : List α) (c j : Nat) (d : α) :
    (l.drop c).getD j d = l.getD (c + j) d := by
  rcases Nat.lt_or_ge (c + j) l.length with hk | hk
  · have h1 : j < (l.drop c).length := by rw [List.length_drop]; omega
    rw [List.getD_eq_getElem _ _ h1, List.getElem_drop, List.getD_eq_getElem _ _ hk]
  · have h1 : (l.drop c).length ≤ j := by rw [List.length_drop]; omega
    rw [List.getD_eq_default _ _ h1, List.getD_eq_default _ _ hk]

/-- In-range `getD` of a `replicate`. -/
theorem getD_replicate {α : Type} (a d : α) (c k : Nat) (h : k < c) :
    (List.replicate c a).getD k d = a := by
  have h1 : k < (List.replicate c a).length := by rwa [List.length_replicate]
  rw [List.getD_eq_getElem _ _ h1, List.getElem_replicate]

/-- `spphaseFrom` at a shifted start is the shifted `spphaseFrom`. -/
theorem spphaseFrom_succ (i : Nat) (cs : List Nat) :
    spphaseFrom (i + 1) cs = (spphaseFrom i cs).map (· + 1) := by
  induction cs generalizing i with
  | nil => simp [spphaseFrom]
  | cons c cs ih =>
    simp only [spphaseFrom, List.map_append, List.map_replicate, ih (i + 1)]

/-- Length of the owning-phase table. -/
theorem spphaseFrom_length (i : Nat) (cs : List Nat) :
    (spphaseFrom i cs).length = cs.sum := by
  induction cs generalizing i with
  | nil => rfl
  | cons c cs ih =>
    simp [spphaseFrom, List.length_append, List.length_replicate, ih (i + 1), List.sum_cons]

/-- A dot product expressed as a sum over indices of `getD` entries. -/
theorem dot_eq_sum_range (xs ys : List ℚ) (h : xs.length = ys.length) :
    ((List.range xs.length).map fun k => xs.getD k 0 * ys.getD k 0).sum = dot xs ys := by
  induction xs generalizing ys with
  | nil => simp [dot]
  | cons x xs ih =>
    match ys with
    | [] => simp at h
    | y :: ys =>
      have h2 : xs.length = ys.length := by simpa using h
      have hmap : (List.range xs.length).map
            ((fun k => (x :: xs).getD k 0 * (y :: ys).getD k 0) ∘ Nat.succ)
          = (List.range xs.length).map fun k => xs.getD k 0 * ys.getD k 0 := by
        refine List.map_congr_left fun k _ => ?_
        simp [Function.comp, List.getD_cons_succ]
      have hdot : dot (x :: xs) (y :: ys) = x * y + dot xs ys := by
        simp [dot]
      rw [List.length_cons, List.range_succ_eq_map, List.map_cons, List.sum_cons,
        List.map_map, hmap, ih ys h2, hdot, List.getD_cons_zero, List.getD_cons_zero]

/-- The flat sum over all global species of atom count times
(fraction times owning-phase moles), with the owning phase read from
the `spphaseFrom` table, equals the phase-sliced aggregation. -/
theorem flat_sum_eq_elemSliced (cs : List Nat) (row fr tot : List ℚ)
    (hrow : row.length = cs.sum) (hfr : fr.length = cs.sum)
    (htot : tot.length = cs.length) :
    ((List.range cs.sum).map fun k =>
        row.getD k 0 * (fr.getD k 0 * tot.getD ((spphaseFrom 0 cs).getD k 0) 0)).sum
      = elemSliced row cs fr tot := by
  induction cs generalizing row fr tot with
  | nil =>
    simp [elemSliced]
  | cons c cs ih =>
    match tot with
    | [] => simp at htot
    | t :: ts =>
      have htot2 : ts.length = cs.length := by simpa using htot
      have hrowc : c ≤ row.length := by rw [hrow, List.sum_cons]; exact Nat.le_add_right _ _
      have hfrc : c ≤ fr.length := by rw [hfr, List.sum_cons]; exact Nat.le_add_right _ _
      have hrowd : (row.drop c).length = cs.sum := by
        rw [List.length_drop, hrow, List.sum_cons]; omega
      have hfrd : (fr.drop c).length = cs.sum := by
        rw [List.length_drop, hfr, List.sum_cons]; omega
      rw [List.sum_cons, List.range_add, List.map_append, List.sum_append]
      have hfirst : ((List.range c).map fun k =>
          row.getD k 0 * (fr.getD k 0 * (t :: ts).getD ((spphaseFrom 0 (c :: cs)).getD k 0) 0)).sum
          = dot (row.take c) (fr.take c) * t := by
        have hcongr : ∀ k ∈ List.range c,
            row.getD k 0 * (fr.getD k 0 * (t :: ts).getD ((spphaseFrom 0 (c :: cs)).getD k 0) 0)
            = ((row.take c).getD k 0 * (fr.take c).getD k 0) * t := by
          intro k hk
          have hkc : k < c := List.mem_range.mp hk
          have hph : (spphaseFrom 0 (c :: cs)).getD k 0 = 0 := by
            show (List.replicate c 0 ++ spphaseFrom 1 cs).getD k 0 = 0
            rw [List.getD_append _ _ _ _ (by rwa [List.length_replicate]),
              getD_replicate _ _ _ _ hkc]
          rw [hph, List.getD_cons_zero, getD_take row c k 0 hkc, getD_take fr c k 0 hkc]
          ring
        rw [List.map_congr_left hcongr, List.sum_map_mul_right,
          show (List.range c) = List.range (row.take c).length by
            rw [List.length_take, Nat.min_eq_left hrowc],
          dot_eq_sum_range _ _ (by rw [List.length_take, List.length_take, hrow, hfr])]
      have hsecond : ((List.map (fun x => c + x) (List.range cs.sum)).map fun k =>
          row.getD k 0 * (fr.getD k 0 * (t :: ts).getD ((spphaseFrom 0 (c :: cs)).getD k 0) 0)).sum
          = elemSliced (row.drop c) cs (fr.drop c) ts := by
        rw [List.map_map, ← ih (row.drop c) (fr.drop c) ts hrowd hfrd htot2]
        refine congrArg List.sum (List.map_congr_left fun j hj => ?_)
        have hjs : j < cs.sum := List.mem_range.mp hj
        have hph : (spphaseFrom 0 (c :: cs)).getD (c + j) 0
            = (spphaseFrom 0 cs).getD j 0 + 1 := by
          show (List.replicate c 0 ++ spphaseFrom 1 cs).getD (c + j) 0 = _
          rw [List.getD_append_right _ _ _ _ (by rw [List.length_replicate]; omega),
            List.length_replicate, Nat.add_sub_cancel_left, spphaseFrom_succ,
            List.getD_eq_getElem _ _ (by rw [List.length_map, spphaseFrom_length]; exact hjs),
            List.getElem_map, List.getD_eq_getElem _ _ (by rw [spphaseFrom_length]; exact hjs)]
        simp only [Function.comp]
        rw [hph, List.getD_cons_succ, getD_drop row c j 0, getD_drop fr c j 0]
      rw [hfirst, hsecond]
      simp [elemSliced]

/-- C2: for a mixture whose index tables are those `init()` builds,
`elementMoles(m)` equals the dot product of atom-matrix row `m` with the
global species mole vector `speciesMoles(k)`. -/
theorem elementMoles_eq_dot (mp : MultiPhase) (m : Nat)
    (hsp : mp.m_spphase = spphaseFrom 0 mp.sizesOf)
    (hnsp : mp.nSpecies = mp.sizesOf.sum)
    (hrow : (mp.m_atoms.getD m []).length = mp.sizesOf.sum)
    (hfr : mp.m_moleFractions.length = mp.sizesOf.sum)
    (htot : mp.m_moles.length = mp.sizesOf.length) :
    mp.elementMoles m
      = ((List.range mp.nSpecies).map fun k => mp.atomsAt m k * mp.speciesMoles k).sum := by
  rw [hnsp]
  unfold MultiPhase.elementMoles MultiPhase.atomsAt MultiPhase.speciesMoles
    MultiPhase.moleFraction MultiPhase.phaseMoles MultiPhase.speciesPhaseIndex
  rw [hsp]
  exact (flat_sum_eq_elemSliced mp.sizesOf _ _ _ hrow hfr htot).symm

/-- C2 witness: the identity evaluated on the concrete initialized
mixture at element 0. -/
theorem elementMoles_eq_dot_witness :
    mpI.elementMoles 0
      = ((List.range mpI.nSpecies).map fun k => mpI.atomsAt 0 k * mpI.speciesMoles k).sum := by
  exact elementMoles_eq_dot mpI 0 (by decide) (by decide) (by decide) (by decide) (by decide)

/-- A default phase used for out-of-range reads of the phase list. -/
def emptyPhase : ThermoPhase :=
  { speciesNames := []
    elementNames := []
    atoms := []
    stoich := false
    tMin := 0
    tMax := 0
    moleFractions := []
    chemPotentials := []
    stdChemPotentials := [] }

/-- The per-phase blocks written by `getValidChemPotentials`, starting
at phase index `ip`: a valid phase contributes the potentials reported
by the phase capability (standard-state ones when `standard`), an
invalid phase contributes the sentinel for each of its species. -/
def validMuBlocksFrom (mp : MultiPhase) (not_mu : ℚ) (standard : Bool) :
    Nat → List ThermoPhase → List (List ℚ)
  | _, [] => []
  | ip, p :: ps =>
    (if mp.tempOK ip then
      (if standard then p.stdChemPotentials else p.chemPotentials)
     else List.replicate p.nsp not_mu) :: validMuBlocksFrom mp not_mu standard (ip + 1) ps

/-- Modelled from the spec: `getValidChemPotentials(not_mu, mu,
standard)` writes the chemical potentials of all species whose owning
phase has valid thermo data at the current temperature and substitutes
the sentinel `not_mu` for the species of every other phase; `standard`
selects standard-state potentials (spec 4.1). -/
def MultiPhase.getValidChemPotentials (mp : MultiPhase) (not_mu : ℚ) (standard : Bool) : List ℚ :=
  (validMuBlocksFrom mp not_mu standard 0 mp.m_phase).flatten

/-- The sentinel blocks have the per-phase species counts as lengths,
provided each phase reports one potential per species. -/
theorem validMuBlocksFrom_lengths (mp : MultiPhase) (not_mu : ℚ) (standard : Bool)
    (ip : Nat) (ps : List ThermoPhase)
    (hchem : ∀ q ∈ ps, q.chemPotentials.length = q.nsp ∧ q.stdChemPotentials.length = q.nsp) :
    (validMuBlocksFrom mp not_mu standard ip ps).map List.length = ps.map ThermoPhase.nsp := by
  induction ps generalizing ip with
  | nil => rfl
  | cons p ps ih =>
    have hp := hchem p (List.mem_cons_self p ps)
    have hrest : ∀ q ∈ ps, q.chemPotentials.length = q.nsp ∧ q.stdChemPotentials.length = q.nsp :=
      fun q hq => hchem q (List.mem_cons_of_mem p hq)
    simp only [validMuBlocksFrom, List.map_cons, ih (ip + 1) hrest]
    congr 1
    rcases hb : mp.tempOK ip with _ | _
    · simp [List.length_replicate]
    · rcases standard with _ | _ <;> simp [hp.1, hp.2]

/-- The `p`-th sentinel block, read off by index. -/
theorem validMuBlocksFrom_getD (mp : MultiPhase) (not_mu : ℚ) (standard : Bool)
    (ip : Nat) (ps : List ThermoPhase) (p : Nat) (hp : p < ps.length) :
    (validMuBlocksFrom mp not_mu standard ip ps).getD p []
      = (if mp.tempOK (ip + p) then
          (if standard then (ps.getD p emptyPhase).stdChemPotentials
           else (ps.getD p emptyPhase).chemPotentials)
         else List.replicate (ps.getD p emptyPhase).nsp not_mu) := by
  induction ps generalizing ip p with
  | nil => simp at hp
  | cons q ps ih =>
    match p with
    | 0 => simp [validMuBlocksFrom]
    | p + 1 =>
      have hp2 : p < ps.length := by simpa using hp
      simp only [validMuBlocksFrom, List.getD_cons_succ, ih (ip + 1) p hp2,
        List.getD_cons_succ]
      have : ip + 1 + p = ip + (p + 1) := by omega
      rw [this]

/-- Offsets of the `m_spstart` table. -/
theorem spstartFrom_getD (s : Nat) (cs : List Nat) (p : Nat) (hp : p < cs.length) :
    (spstartFrom s cs).getD p 0 = s + (cs.take p).sum := by
  induction cs generalizing s p with
  | nil => simp at hp
  | cons c cs ih =>
    match p with
    | 0 => simp [spstartFrom]
    | p + 1 =>
      have hp2 : p < cs.length := by simpa using hp
      simp only [spstartFrom, List.getD_cons_succ, ih (s + c) p hp2, List.take_succ_cons,
        List.sum_cons]
      omega

/-- C8: (a) after `setTemperature(T)`, `tempOK(p)` is true iff phase `p`
is stoichiometric, or is non-stoichiometric and `T` lies within the
phase's valid temperature range; (b) for any phase `p` with `tempOK(p)`
false, `getValidChemPotentials(not_mu, mu, standard)` writes the
sentinel `not_mu` for that phase's whole species slice, hence at the
global index of each of its species. -/
theorem tempOK_validChemPotentials (mp : MultiPhase) (p : Nat)
    (hp : p < mp.m_phase.length) :
    (∀ T : ℚ,
      ((mp.setTemperature T).tempOK p = true ↔
        ((mp.m_phase.getD p emptyPhase).stoich = true ∨
         ((mp.m_phase.getD p emptyPhase).stoich = false ∧
          (mp.m_phase.getD p emptyPhase).tMin ≤ T ∧
          T ≤ (mp.m_phase.getD p emptyPhase).tMax)))) ∧
    (∀ (not_mu : ℚ) (standard : Bool),
      mp.tempOK p = false →
      (∀ q ∈ mp.m_phase,
        q.chemPotentials.length = q.nsp ∧ q.stdChemPotentials.length = q.nsp) →
      nthSlice mp.sizesOf (mp.getValidChemPotentials not_mu standard) p
          = List.replicate (mp.sizesOf.getD p 0) not_mu ∧
      (mp.m_spstart = spstartFrom 0 mp.sizesOf →
        ∀ ik, ik < mp.sizesOf.getD p 0 →
          (mp.getValidChemPotentials not_mu standard).getD (mp.speciesIndex ik p) 0
            = not_mu)) := by
  constructor
  · intro T
    have hpm : p < (mp.m_phase.map fun q =>
        q.stoich || (decide (q.tMin ≤ T) && decide (T ≤ q.tMax))).length := by
      rwa [List.length_map]
    show (mp.m_phase.map fun q =>
        q.stoich || (decide (q.tMin ≤ T) && decide (T ≤ q.tMax))).getD p false = true ↔ _
    rw [List.getD_eq_getElem _ _ hpm, List.getElem_map,
      List.getD_eq_getElem _ _ hp]
    rcases hstoich : mp.m_phase[p].stoich with _ | _ <;>
      simp [hstoich, decide_eq_true_iff]
  · intro not_mu standard hno hchem
    have hsizes : mp.sizesOf.getD p 0 = (mp.m_phase.getD p emptyPhase).nsp := by
      unfold MultiPhase.sizesOf
      rw [List.getD_eq_getElem _ _ (by rwa [List.length_map]), List.getElem_map,
        List.getD_eq_getElem _ _ hp]
    have hslice : nthSlice mp.sizesOf (mp.getValidChemPotentials not_mu standard) p
        = List.replicate (mp.sizesOf.getD p 0) not_mu := by
      unfold MultiPhase.getValidChemPotentials
      rw [nthSlice_flatten _ mp.sizesOf
          (validMuBlocksFrom_lengths mp not_mu standard 0 mp.m_phase hchem) p,
        validMuBlocksFrom_getD mp not_mu standard 0 mp.m_phase p hp, Nat.zero_add,
        hno, hsizes]
      simp
    refine ⟨hslice, fun hsps ik hik => ?_⟩
    have hstart : mp.speciesIndex ik p = (mp.sizesOf.take p).sum + ik := by
      unfold MultiPhase.speciesIndex
      rw [hsps, spstartFrom_getD 0 mp.sizesOf p (by
        unfold MultiPhase.sizesOf; rwa [List.length_map]), Nat.zero_add]
    have hread : (mp.getValidChemPotentials not_mu standard).getD
        ((mp.sizesOf.take p).sum + ik) 0
        = (nthSlice mp.sizesOf (mp.getValidChemPotentials not_mu standard) p).getD ik 0 := by
      unfold nthSlice
      rw [getD_take _ _ _ _ hik, getD_drop]
    rw [hstart, hread, hslice, getD_replicate _ _ _ _ hik]

/-- C8 witness: at mixture temperature 1500 K the solution phase with
valid range [300, 1000] K reports `tempOK = false`, and
`getValidChemPotentials` substitutes the sentinel 99 for both of its
species; the stoichiometric phase stays valid. -/
theorem tempOK_validChemPotentials_witness :
    ((mpI.setTemperature 1500).tempOK 0 = true ↔
      ((mpI.setTemperature 1500).m_phase.getD 0 emptyPhase).stoich = true ∨
       (((mpI.setTemperature 1500).m_phase.getD 0 emptyPhase).stoich = false ∧
        ((mpI.setTemperature 1500).m_phase.getD 0 emptyPhase).tMin ≤ 1500 ∧
        (1500:ℚ) ≤ ((mpI.setTemperature 1500).m_phase.getD 0 emptyPhase).tMax)) ∧
    ((mpI.setTemperature 1500).getValidChemPotentials 99 false).getD
      ((mpI.setTemperature 1500).speciesIndex 0 0) 0 = 99 := by
  constructor
  · exact (tempOK_validChemPotentials (mpI.setTemperature 1500) 0 (by decide)).1 1500
  · exact ((tempOK_validChemPotentials (mpI.setTemperature 1500) 0 (by decide)).2
      99 false (by decide) (by decide)).2 (by decide) 0 (by decide)

/-- Modelled from the spec: the pair of state variables `equilibrate`
holds fixed (the integer flag `XY`); `TP` is the direct case, every
other case wraps the fixed-(T,P) solve in an outer loop on a free
variable (spec 4.3). -/
inductive PropPair where
  | TP : PropPair
  | HP : PropPair
  | SP : PropPair
  deriving DecidableEq, Repr

/-- Modelled from the spec: the inner fixed-(T,P) solve. The numerics
(one mole-number adjustment step and the chemical-potential residual of
a state) are external collaborators, abstracted as `step` and `resid`.
The loop returns the state and its residual as soon as the residual
falls below `err`; when the step budget is exhausted first, it fails
with `ConvergenceError` carrying the last achieved residual
(spec 4.3). -/
def innerSolve {σ : Type} (step : σ → σ) (resid : σ → ℚ) (err : ℚ) :
    Nat → σ → Except CanteraError (σ × ℚ)
  | 0, s =>
    if resid s < err then .ok (s, resid s)
    else .error (.ConvergenceError (resid s))
  | n + 1, s =>
    if resid s < err then .ok (s, resid s)
    else innerSolve step resid err n (step s)

/-- Modelled from the spec: the outer loop for non-(T,P) fixed pairs:
each iteration runs the inner solve, then checks the outer residual
(the mismatch of the held extensive property, relative form) against
`err`; the free-variable update rule is an external collaborator
`update`; exhausting `maxiter` fails with `ConvergenceError` carrying
the last achieved outer residual (spec 4.3). -/
def outerSolve {σ : Type} (step : σ → σ) (resid : σ → ℚ) (update : σ → σ)
    (outResid : σ → ℚ) (err : ℚ) (maxsteps : Nat) :
    Nat → σ → Except CanteraError (σ × ℚ)
  | 0, s =>
    match innerSolve step resid err maxsteps s with
    | .error er => .error er
    | .ok r =>
      if outResid r.1 < err then .ok r
      else .error (.ConvergenceError (outResid r.1))
  | m + 1, s =>
    match innerSolve step resid err maxsteps s with
    | .error er => .error er
    | .ok r =>
      if outResid r.1 < err then .ok r
      else outerSolve step resid update outResid err maxsteps m (update r.1)

/-- Modelled from the spec: `equilibrate(XY, err, maxsteps, maxiter,
loglevel)`: the direct inner solve for fixed (T,P), the outer loop
otherwise; `loglevel` only controls diagnostics and has no effect on
the result (spec 4.3). -/
def equilibrate {σ : Type} (XY : PropPair) (step : σ → σ) (resid : σ → ℚ)
    (update : σ → σ) (outResid : σ → ℚ) (err : ℚ)
    (maxsteps maxiter : Nat) (loglevel : Int) (s : σ) :
    Except CanteraError (σ × ℚ) :=
  match XY with
  | .TP => innerSolve step resid err maxsteps s
  | _ => outerSolve step resid update outResid err maxsteps maxiter s

/-- A successful inner solve returns a state whose residual is below
tolerance, and that residual. -/
theorem innerSolve_ok {σ : Type} (step : σ → σ) (resid : σ → ℚ) (err : ℚ)
    (n : Nat) (s : σ) (s2 : σ) (e : ℚ)
    (h : innerSolve step resid err n s = .ok (s2, e)) :
    e < err ∧ e = resid s2 := by
  induction n generalizing s with
  | zero =>
    unfold innerSolve at h
    split at h
    · rename_i hlt
      injection h with h2
      injection h2 with ha hb
      subst ha; subst hb
      exact ⟨hlt, rfl⟩
    · exact Except.noConfusion h
  | succ n ih =>
    unfold innerSolve at h
    split at h
    · rename_i hlt
      injection h with h2
      injection h2 with ha hb
      subst ha; subst hb
      exact ⟨hlt, rfl⟩
    · exact ih (step s) h

/-- A failed inner solve always signals `ConvergenceError`, with a
residual that did not meet the tolerance. -/
theorem innerSolve_err {σ : Type} (step : σ → σ) (resid : σ → ℚ) (err : ℚ)
    (n : Nat) (s : σ) (er : CanteraError)
    (h : innerSolve step resid err n s = .error er) :
    ∃ e, er = .ConvergenceError e ∧ ¬ e < err := by
  induction n generalizing s with
  | zero =>
    unfold innerSolve at h
    split at h
    · exact Except.noConfusion h
    · rename_i hlt
      injection h with h2
      exact ⟨resid s, h2.symm, hlt⟩
  | succ n ih =>
    unfold innerSolve at h
    split at h
    · exact Except.noConfusion h
    · exact ih (step s) h

/-- A successful outer solve returns a state meeting both the inner and
the outer tolerance. -/
theorem outerSolve_ok {σ : Type} (step : σ → σ) (resid : σ → ℚ) (update : σ → σ)
    (outResid : σ → ℚ) (err : ℚ) (maxsteps : Nat) (m : Nat) (s : σ) (s2 : σ) (e : ℚ)
    (h : outerSolve step resid update outResid err maxsteps m s = .ok (s2, e)) :
    e < err ∧ e = resid s2 ∧ outResid s2 < err := by
  induction m generalizing s with
  | zero =>
    unfold outerSolve at h
    split at h
    · exact Except.noConfusion h
    · rename_i r hinner
      split at h
      · rename_i hout
        injection h with h2
        obtain ⟨h3, h4⟩ := innerSolve_ok step resid err maxsteps s r.1 r.2
          (by rw [hinner])
        subst h2
        exact ⟨h3, h4, hout⟩
      · exact Except.noConfusion h
  | succ m ih =>
    unfold outerSolve at h
    split at h
    · exact Except.noConfusion h
    · rename_i r hinner
      split at h
      · rename_i hout
        injection h with h2
        obtain ⟨h3, h4⟩ := innerSolve_ok step resid err maxsteps s r.1 r.2
          (by rw [hinner])
        subst h2
        exact ⟨h3, h4, hout⟩
      · exact ih (update r.1) h

/-- A failed outer solve always signals `ConvergenceError`, with a
residual that did not meet the tolerance. -/
theorem outerSolve_err {σ : Type} (step : σ → σ) (resid : σ → ℚ) (update : σ → σ)
    (outResid : σ → ℚ) (err : ℚ) (maxsteps : Nat) (m : Nat) (s : σ) (er : CanteraError)
    (h : outerSolve step resid update outResid err maxsteps m s = .error er) :
    ∃ e, er = .ConvergenceError e ∧ ¬ e < err := by
  induction m generalizing s with
  | zero =>
    unfold outerSolve at h
    split at h
    · rename_i er2 hinner
      injection h with h2
      subst h2
      exact innerSolve_err step resid err maxsteps s er2 hinner
    · rename_i r hinner
      split at h
      · exact Except.noConfusion h
      · rename_i hout
        injection h with h2
        exact ⟨outResid r.1, h2.symm, hout⟩
  | succ m ih =>
    unfold outerSolve at h
    split at h
    · rename_i er2 hinner
      injection h with h2
      subst h2
      exact innerSolve_err step resid err maxsteps s er2 hinner
    · rename_i r hinner
      split at h
      · exact Except.noConfusion h
      · exact ih (update r.1) h

/-- C7: `equilibrate` never returns an unconverged state as a success:
a successful return carries a residual below `err` (and, for non-(T,P)
problems, an outer residual below `err` as well), and when either loop
exhausts its budget the call signals `ConvergenceError` carrying the
last achieved error value, which did not meet the tolerance. -/
theorem equilibrate_convergence {σ : Type} (XY : PropPair) (step : σ → σ)
    (resid : σ → ℚ) (update : σ → σ) (outResid : σ → ℚ) (err : ℚ)
    (maxsteps maxiter : Nat) (loglevel : Int) (s : σ) :
    (∀ (s2 : σ) (e : ℚ),
      equilibrate XY step resid update outResid err maxsteps maxiter loglevel s
          = .ok (s2, e) →
      e < err ∧ e = resid s2 ∧ (XY ≠ .TP → outResid s2 < err)) ∧
    (∀ er : CanteraError,
      equilibrate XY step resid update outResid err maxsteps maxiter loglevel s
          = .error er →
      ∃ e, er = .ConvergenceError e ∧ ¬ e < err) := by
  constructor
  · intro s2 e h
    match XY with
    | .TP =>
      obtain ⟨h1, h2⟩ := innerSolve_ok step resid err maxsteps s s2 e h
      exact ⟨h1, h2, fun hne => absurd rfl hne⟩
    | .HP =>
      obtain ⟨h1, h2, h3⟩ := outerSolve_ok step resid update outResid err maxsteps maxiter s s2 e h
      exact ⟨h1, h2, fun _ => h3⟩
    | .SP =>
      obtain ⟨h1, h2, h3⟩ := outerSolve_ok step resid update outResid err maxsteps maxiter s s2 e h
      exact ⟨h1, h2, fun _ => h3⟩
  · intro er h
    match XY with
    | .TP => exact innerSolve_err step resid err maxsteps s er h
    | .HP => exact outerSolve_err step resid update outResid err maxsteps maxiter s er h
    | .SP => exact outerSolve_err step resid update outResid err maxsteps maxiter s er h

/-- C7 witness: with the trivial collaborators (zero residual), the
fixed-(T,P) call converges and the theorem yields a residual below
tolerance; with an unreachable tolerance the call fails and the theorem
yields a `ConvergenceError` payload not below tolerance. -/
theorem equilibrate_convergence_witness :
    ((0:ℚ) < 1 ∧ (0:ℚ) = (fun _ : ℚ => (0:ℚ)) 7 ∧
      (PropPair.TP ≠ PropPair.TP → (fun _ : ℚ => (0:ℚ)) 7 < 1)) ∧
    (∃ e, CanteraError.ConvergenceError (5:ℚ)
        = CanteraError.ConvergenceError e ∧ ¬ e < (1:ℚ)) := by
  constructor
  · exact (equilibrate_convergence PropPair.TP id (fun _ => 0) id (fun _ => 0)
      1 3 4 0 (7:ℚ)).1 7 0 rfl
  · exact (equilibrate_convergence PropPair.TP id (fun _ => 5) id (fun _ => 0)
      1 2 4 0 (7:ℚ)).2 (CanteraError.ConvergenceError 5) rfl

/-- `getD` after `List.set` at a different index reads the old entry. -/
theorem getD_set_ne {α : Type} (l : List α) (n j : Nat) (a d : α) (h : j ≠ n) :
    (l.set n a).getD j d = l.getD j d := by
  rw [List.getD_eq_getD_get?, List.getD_eq_getD_get?, List.get?_eq_getElem?,
    List.get?_eq_getElem?, List.getElem?_set_ne (Ne.symm h)]

/-- C10: `setPhaseMoles(n, moles)` changes only the stored mole count of
phase `n`: the phase objects, temperature, pressure, global mole
fractions, atom matrix, index data and the `m_init` flag are untouched,
and the mole count of every other phase is unchanged. -/
theorem setPhaseMoles_frame (mp : MultiPhase) (n : Nat) (moles : ℚ) :
    (mp.setPhaseMoles n moles).m_phase = mp.m_phase ∧
    (mp.setPhaseMoles n moles).m_temp = mp.m_temp ∧
    (mp.setPhaseMoles n moles).m_press = mp.m_press ∧
    (mp.setPhaseMoles n moles).m_moleFractions = mp.m_moleFractions ∧
    (mp.setPhaseMoles n moles).m_atoms = mp.m_atoms ∧
    (mp.setPhaseMoles n moles).m_spphase = mp.m_spphase ∧
    (mp.setPhaseMoles n moles).m_spstart = mp.m_spstart ∧
    (mp.setPhaseMoles n moles).m_init = mp.m_init ∧
    (mp.setPhaseMoles n moles).m_temp_OK = mp.m_temp_OK ∧
    ∀ j, j ≠ n → (mp.setPhaseMoles n moles).phaseMoles j = mp.phaseMoles j := by
  refine ⟨rfl, rfl, rfl, rfl, rfl, rfl, rfl, rfl, rfl, fun j hj => ?_⟩
  simp only [MultiPhase.setPhaseMoles, MultiPhase.phaseMoles]
  exact getD_set_ne _ _ _ _ _ hj

/-- C10 witness: on the concrete mixture, setting phase 0's moles to 5
leaves phase 1's moles unchanged. -/
theorem setPhaseMoles_frame_witness :
    (mpI.setPhaseMoles 0 5).phaseMoles 1 = mpI.phaseMoles 1 :=
  (setPhaseMoles_frame mpI 0 5).2.2.2.2.2.2.2.2.2 1 (by decide)

/-- C9: on a mixture not yet initialized, `nAtoms(kGlob, mGlob)` does
not fail: it first runs `init()` itself — so the returned object is the
initialized mixture, whose `m_init` flag is set — and returns the
atom-matrix entry `m_atoms(mGlob, kGlob)` of that initialized mixture. -/
theorem nAtoms_runs_init (mp : MultiPhase) (kGlob mGlob : Nat)
    (h : mp.m_init = false) :
    (mp.nAtoms kGlob mGlob).2 = mp.init ∧
    (mp.nAtoms kGlob mGlob).2.m_init = true ∧
    (mp.nAtoms kGlob mGlob).1 = mp.init.atomsAt mGlob kGlob := by
  have h2 : mp.init.m_init = true := by
    simp [MultiPhase.init, MultiPhase.updatePhases]
  simp [MultiPhase.nAtoms, h, h2]

/-- C9 witness: on the concrete uninitialized mixture, `nAtoms 0 0`
initializes the object and reads the atom matrix of the result. -/
theorem nAtoms_runs_init_witness :
    (mp0.nAtoms 0 0).2 = mp0.init ∧
    (mp0.nAtoms 0 0).2.m_init = true ∧
    (mp0.nAtoms 0 0).1 = mp0.init.atomsAt 0 0 :=
  nAtoms_runs_init mp0 0 0 rfl

/-- C4: once `init()` has run, `addPhase` fails with
`InvalidStateError`, a nonempty bulk `addPhases` fails with
`InvalidStateError`, and the observed state after the failed call is the
unchanged mixture (hence `nElements`, `nSpecies`, the global indices and
the atom matrix are all unchanged). -/
theorem addPhase_after_init (mp : MultiPhase) (p : ThermoPhase) (moles : ℚ)
    (h : mp.m_init = true) :
    mp.addPhase p moles = Except.error CanteraError.InvalidStateError ∧
    (∀ ps : List (ThermoPhase × ℚ), ps ≠ [] →
      mp.addPhases ps = Except.error CanteraError.InvalidStateError) ∧
    mp.addPhaseState p moles = mp ∧
    (mp.addPhaseState p moles).nElements = mp.nElements ∧
    (mp.addPhaseState p moles).nSpecies = mp.nSpecies ∧
    (mp.addPhaseState p moles).m_spstart = mp.m_spstart ∧
    (mp.addPhaseState p moles).m_spphase = mp.m_spphase ∧
    (mp.addPhaseState p moles).m_atoms = mp.m_atoms := by
  have herr : mp.addPhase p moles = Except.error CanteraError.InvalidStateError := by
    simp [MultiPhase.addPhase, h]
  have hstate : mp.addPhaseState p moles = mp := by
    simp [MultiPhase.addPhaseState, herr, Except.toOption]
  refine ⟨herr, ?_, hstate, by rw [hstate], by rw [hstate], by rw [hstate],
    by rw [hstate], by rw [hstate]⟩
  intro ps hps
  match ps with
  | [] => exact absurd rfl hps
  | q :: qs =>
    have herrq : mp.addPhase q.1 q.2 = Except.error CanteraError.InvalidStateError := by
      simp [MultiPhase.addPhase, h]
    simp only [MultiPhase.addPhases, List.foldlM_cons, herrq]
    rfl

/-- C4 witness: adding a phase (singly or in bulk) to the concrete
initialized mixture fails with `InvalidStateError` and leaves it
unchanged. -/
theorem addPhase_after_init_witness :
    mpI.addPhase phB 1 = Except.error CanteraError.InvalidStateError ∧
    mpI.addPhases [(phB, 1)] = Except.error CanteraError.InvalidStateError ∧
    mpI.addPhaseState phB 1 = mpI := by
  have h := addPhase_after_init mpI phB 1 (by decide)
  exact ⟨h.1, h.2.1 [(phB, 1)] (by simp), h.2.2.1⟩

/-! ### Basis optimizer -/

/-- Sum of `f` over the indices `0, …, n-1`. -/
def rsum (n : Nat) (f : Nat → ℚ) : ℚ := ((List.range n).map f).sum

/-- `rsum` as a `Finset` sum. -/
theorem rsum_eq_finsetSum (n : Nat) (f : Nat → ℚ) :
    rsum n f = ∑ t ∈ Finset.range n, f t := rfl

/-- Splitting off the last summand. -/
theorem rsum_succ (n : Nat) (f : Nat → ℚ) : rsum (n + 1) f = rsum n f + f n := by
  unfold rsum
  rw [List.range_succ, List.map_append, List.sum_append, List.map_singleton,
    List.sum_singleton]

/-- `rsum` only depends on the values below `n`. -/
theorem rsum_congr (n : Nat) (f g : Nat → ℚ) (h : ∀ t, t < n → f t = g t) :
    rsum n f = rsum n g := by
  unfold rsum
  exact congrArg List.sum (List.map_congr_left fun t ht => h t (List.mem_range.mp ht))

/-- A vanishing summand function sums to zero. -/
theorem rsum_zero_fun (n : Nat) (f : Nat → ℚ) (h : ∀ t, t < n → f t = 0) :
    rsum n f = 0 := by
  rw [rsum_congr n f (fun _ => 0) h]
  unfold rsum
  simp

/-- One selected component of the basis: the global index of the
species it came from, that species' original atom column, the reduced
row produced by the elimination, the pivot element index, whether the
species had zero moles when selected, and the coefficients expressing
the reduced row over the original columns of the components selected so
far. -/
structure BasisEntry where
  spIdx : Nat
  orig : Nat → ℚ
  red : Nat → ℚ
  piv : Nat
  zeroMoles : Bool
  exprO : Nat → ℚ

/-- The default (all-zero) basis entry, for out-of-range reads. -/
def dfltEntry : BasisEntry :=
  { spIdx := 0
    orig := fun _ => 0
    red := fun _ => 0
    piv := 0
    zeroMoles := false
    exprO := fun _ => 0 }

/-- Modelled from the spec: Gaussian-elimination-style reduction of one
atom column against the already-selected components, in selection
order; returns the residual and the elimination coefficient taken
against each component's reduced row (spec 4.2). -/
def reduceRow : List BasisEntry → (Nat → ℚ) → (Nat → ℚ) × List ℚ
  | [], v => (v, [])
  | e :: rest, v =>
    let c := v e.piv / e.red e.piv
    let r := reduceRow rest (fun i => v i - c * e.red i)
    (r.1, c :: r.2)

/-- The reduction returns one coefficient per component. -/
theorem reduceRow_length (basis : List BasisEntry) (v : Nat → ℚ) :
    (reduceRow basis v).2.length = basis.length := by
  induction basis generalizing v with
  | nil => rfl
  | cons e rest ih => simp [reduceRow, ih]

/-- Sum of pairwise products against entries that all vanish at `i`. -/
theorem zipSum_red_zero (cs : List ℚ) (es : List BasisEntry) (i : Nat)
    (h : ∀ e ∈ es, e.red i = 0) :
    (List.zipWith (fun c e => c * e.red i) cs es).sum = 0 := by
  induction cs generalizing es with
  | nil => simp
  | cons c cs ih =>
    match es with
    | [] => simp
    | e :: es =>
      rw [List.zipWith_cons_cons, List.sum_cons,
        h e (List.mem_cons_self e es), ih es fun q hq => h q (List.mem_cons_of_mem e hq)]
      ring

/-- A zipped product sum as an indexed sum. -/
theorem zipSum_eq_rsum (cs : List ℚ) (es : List BasisEntry) (g : BasisEntry → ℚ)
    (h : cs.length = es.length) :
    (List.zipWith (fun c e => c * g e) cs es).sum
      = rsum es.length fun j => cs.getD j 0 * g (es.getD j dfltEntry) := by
  induction cs generalizing es with
  | nil =>
    match es with
    | [] => simp [rsum]
    | e :: es => simp at h
  | cons c cs ih =>
    match es with
    | [] => simp at h
    | e :: es =>
      have h2 : cs.length = es.length := by simpa using h
      rw [List.zipWith_cons_cons, List.sum_cons, ih es h2, List.length_cons]
      have hshift : rsum (es.length + 1)
          (fun j => (c :: cs).getD j 0 * g ((e :: es).getD j dfltEntry))
          = c * g e + rsum es.length (fun j => cs.getD j 0 * g (es.getD j dfltEntry)) := by
        rw [rsum_eq_finsetSum, Finset.sum_range_succ', add_comm]
        congr 1
      rw [hshift]

/-- The invariant of the reduction: the input column is the residual
plus the eliminated combination of the reduced rows. -/
theorem reduceRow_eq (basis : List BasisEntry) (v : Nat → ℚ) (i : Nat) :
    v i = (reduceRow basis v).1 i
      + (List.zipWith (fun c e => c * e.red i) (reduceRow basis v).2 basis).sum := by
  induction basis generalizing v with
  | nil => simp [reduceRow]
  | cons e rest ih =>
    have h := ih (fun j => v j - v e.piv / e.red e.piv * e.red j)
    simp only [reduceRow, List.zipWith_cons_cons, List.sum_cons]
    have : v i - v e.piv / e.red e.piv * e.red i
        = (reduceRow rest fun j => v j - v e.piv / e.red e.piv * e.red j).1 i
          + (List.zipWith (fun c e => c * e.red i)
              (reduceRow rest fun j => v j - v e.piv / e.red e.piv * e.red j).2 rest).sum := h
    linarith [this]

/-- Whether a column vanishes on every element index below `nel`. -/
def isZeroOn (nel : Nat) (v : Nat → ℚ) : Bool :=
  (List.range nel).all fun i => decide (v i = 0)

/-- Characterization of `isZeroOn`. -/
theorem isZeroOn_iff (nel : Nat) (v : Nat → ℚ) :
    isZeroOn nel v = true ↔ ∀ i, i < nel → v i = 0 := by
  unfold isZeroOn
  rw [List.all_eq_true]
  constructor
  · intro h i hi
    exact of_decide_eq_true (h i (List.mem_range.mpr hi))
  · intro h i hi
    exact decide_eq_true (h i (List.mem_range.mp hi))

/-- The pivot: the first element index below `nel` where the residual
is nonzero (the spec leaves the exact in-column pivot rule open; first
nonzero index is the documented deterministic choice). -/
def pivotOf (nel : Nat) (v : Nat → ℚ) : Nat :=
  (((List.range nel).find? fun i => decide (v i ≠ 0))).getD 0

/-- A residual that is not identically zero below `nel` has a pivot
below `nel` at which it is nonzero. -/
theorem pivotOf_spec (nel : Nat) (v : Nat → ℚ) (h : isZeroOn nel v = false) :
    pivotOf nel v < nel ∧ v (pivotOf nel v) ≠ 0 := by
  rcases hf : (List.range nel).find? fun i => decide (v i ≠ 0) with _ | j
  · exfalso
    have hall : ∀ i, i < nel → v i = 0 := by
      intro i hi
      have := List.find?_eq_none.mp hf i (List.mem_range.mpr hi)
      simpa using this
    rw [(isZeroOn_iff nel v).mpr hall] at h
    exact Bool.noConfusion h
  · have hmem : j ∈ List.range nel := List.mem_of_find?_eq_some hf
    have hne : v j ≠ 0 := by simpa using List.find?_some hf
    unfold pivotOf
    rw [hf]
    exact ⟨List.mem_range.mp hmem, hne⟩

/-- The invariant of the growing component basis: every pivot is a
valid element index at which its own reduced row is nonzero; every
entry's reduced row vanishes at the pivots of all earlier entries
(staircase form); every entry's reduced row is the stored combination
of the original columns of the selected components; and the
combination coefficients of entry `j` vanish beyond position `j`. -/
structure GoodBasis (nel : Nat) (basis : List BasisEntry) : Prop where
  piv_lt : ∀ e ∈ basis, e.piv < nel
  red_piv : ∀ e ∈ basis, e.red e.piv ≠ 0
  stair : List.Pairwise (fun a b => b.red a.piv = 0) basis
  expr : ∀ j i, (basis.getD j dfltEntry).red i
      = rsum basis.length fun t =>
          (basis.getD j dfltEntry).exprO t * (basis.getD t dfltEntry).orig i
  expr_support : ∀ j t, j < t → (basis.getD j dfltEntry).exprO t = 0

/-- The empty basis satisfies the invariant. -/
theorem goodBasis_nil (nel : Nat) : GoodBasis nel [] := by
  refine ⟨?_, ?_, List.Pairwise.nil, ?_, ?_⟩
  · intro e he; simp at he
  · intro e he; simp at he
  · intro j i
    simp [dfltEntry, rsum]
  · intro j t _
    simp [dfltEntry]

/-- After reducing against a staircase basis, the residual vanishes at
every pivot of the basis. -/
theorem reduceRow_resid_piv (basis : List BasisEntry) (v : Nat → ℚ)
    (hne : ∀ e ∈ basis, e.red e.piv ≠ 0)
    (hst : List.Pairwise (fun a b => b.red a.piv = 0) basis) :
    ∀ e ∈ basis, (reduceRow basis v).1 e.piv = 0 := by
  induction basis generalizing v with
  | nil =>
    intro e he
    simp at he
  | cons a rest ih =>
    intro e he
    obtain ⟨hpair, hst2⟩ := List.pairwise_cons.mp hst
    rcases List.mem_cons.mp he with rfl | he2
    · show (reduceRow rest fun j => v j - v e.piv / e.red e.piv * e.red j).1 e.piv = 0
      have h1 := reduceRow_eq rest (fun j => v j - v e.piv / e.red e.piv * e.red j) e.piv
      have h2 : (List.zipWith (fun c b => c * b.red e.piv)
          (reduceRow rest fun j => v j - v e.piv / e.red e.piv * e.red j).2 rest).sum = 0 :=
        zipSum_red_zero _ rest e.piv fun b hb => hpair b hb
      have h3 : v e.piv - v e.piv / e.red e.piv * e.red e.piv = 0 := by
        rw [div_mul_cancel₀ _ (hne e (List.mem_cons_self e rest))]
        ring
      rw [h3, h2] at h1
      linarith
    · exact ih (fun j => v j - v a.piv / a.red a.piv * a.red j)
        (fun b hb => hne b (List.mem_cons_of_mem a hb)) hst2 e he2

/-- Reducing an already element-zero residual against further entries
with valid pivots changes nothing. -/
theorem reduceRow_zero_stable (nel : Nat) (r : Nat → ℚ) (hz : ∀ i, i < nel → r i = 0) :
    ∀ ext : List BasisEntry, (∀ e ∈ ext, e.piv < nel) → (reduceRow ext r).1 = r := by
  intro ext
  induction ext with
  | nil =>
    intro _
    rfl
  | cons e rest ih =>
    intro hpv
    have hc : r e.piv / e.red e.piv = 0 := by
      rw [hz e.piv (hpv e (List.mem_cons_self e rest)), zero_div]
    have hv2 : (fun i => r i - r e.piv / e.red e.piv * e.red i) = r := by
      funext i
      rw [hc]
      ring
    show (reduceRow rest fun i => r i - r e.piv / e.red e.piv * e.red i).1 = r
    rw [hv2]
    exact ih fun b hb => hpv b (List.mem_cons_of_mem e hb)

/-- Reduction against an extended basis factors through the reduction
against the first part. -/
theorem reduceRow_append (b ext : List BasisEntry) (v : Nat → ℚ) :
    (reduceRow (b ++ ext) v).1 = (reduceRow ext (reduceRow b v).1).1 := by
  induction b generalizing v with
  | nil => rfl
  | cons e rest ih =>
    show (reduceRow (rest ++ ext) fun j => v j - v e.piv / e.red e.piv * e.red j).1 = _
    exact ih (fun j => v j - v e.piv / e.red e.piv * e.red j)

/-- Negation distributes over `rsum`. -/
theorem rsum_neg (n : Nat) (f : Nat → ℚ) : rsum n (fun t => -f t) = -rsum n f := by
  simp [rsum_eq_finsetSum]

/-- Exchanging a double product sum. -/
theorem rsum_swap_mul (L : Nat) (c : Nat → ℚ) (E : Nat → Nat → ℚ) (o : Nat → ℚ) :
    rsum L (fun j => c j * rsum L fun t => E j t * o t)
      = rsum L (fun t => (rsum L fun j => c j * E j t) * o t) := by
  simp only [rsum_eq_finsetSum, Finset.mul_sum, Finset.sum_mul]
  rw [Finset.sum_comm]
  exact Finset.sum_congr rfl fun t _ =>
    Finset.sum_congr rfl fun j _ => (mul_assoc _ _ _).symm

/-- The component built when the residual of candidate `(k, v, zf)` is
not element-zero: the reduced row is the residual, the pivot is the
first nonzero element index of the residual, and the stored
coefficients express the residual over the original columns of the
components (the eliminated multiples of the earlier components, negated,
with coefficient one for the new column itself). -/
def newEntry (nel : Nat) (basis : List BasisEntry) (k : Nat) (v : Nat → ℚ) (zf : Bool) :
    BasisEntry :=
  { spIdx := k
    orig := v
    red := (reduceRow basis v).1
    piv := pivotOf nel (reduceRow basis v).1
    zeroMoles := zf
    exprO := fun t =>
      if t = basis.length then 1
      else -(rsum basis.length fun j =>
        (reduceRow basis v).2.getD j 0 * (basis.getD j dfltEntry).exprO t) }

/-- Modelled from the spec: the selection pass of the basis optimizer
(spec 4.2): candidates `(species, atom column, zero-moles flag)` are
examined in pivot-priority order; a candidate whose column reduces to
zero against the current components is skipped (it is dependent), any
other candidate becomes the next component. -/
def selectBasisAux (nel : Nat) :
    List BasisEntry → List (Nat × (Nat → ℚ) × Bool) → List BasisEntry
  | basis, [] => basis
  | basis, (k, v, zf) :: rest =>
    if isZeroOn nel (reduceRow basis v).1 then selectBasisAux nel basis rest
    else selectBasisAux nel (basis ++ [newEntry nel basis k v zf]) rest

/-- Appending a freshly selected component preserves the basis
invariant. -/
theorem goodBasis_append (nel : Nat) (basis : List BasisEntry)
    (hg : GoodBasis nel basis) (k : Nat) (v : Nat → ℚ) (zf : Bool)
    (hnz : isZeroOn nel (reduceRow basis v).1 = false) :
    GoodBasis nel (basis ++ [newEntry nel basis k v zf]) := by
  obtain ⟨hpl, hrp⟩ := pivotOf_spec nel (reduceRow basis v).1 hnz
  have hm : (basis ++ [newEntry nel basis k v zf]).length = basis.length + 1 := by
    simp
  refine ⟨?_, ?_, ?_, ?_, ?_⟩
  · intro e he
    rcases List.mem_append.mp he with he | he
    · exact hg.piv_lt e he
    · rw [List.mem_singleton.mp he]
      exact hpl
  · intro e he
    rcases List.mem_append.mp he with he | he
    · exact hg.red_piv e he
    · rw [List.mem_singleton.mp he]
      exact hrp
  · rw [List.pairwise_append]
    refine ⟨hg.stair, List.pairwise_singleton _ _, fun a ha b hb => ?_⟩
    rw [List.mem_singleton.mp hb]
    exact reduceRow_resid_piv basis v hg.red_piv hg.stair a ha
  · intro j i
    rcases Nat.lt_trichotomy j basis.length with hj | hj | hj
    · rw [List.getD_append _ _ _ _ hj, hm, rsum_succ]
      have hlast : (basis.getD j dfltEntry).exprO basis.length
          * ((basis ++ [newEntry nel basis k v zf]).getD basis.length dfltEntry).orig i
          = 0 := by
        rw [hg.expr_support j basis.length hj]
        ring
      rw [hlast, add_zero, hg.expr j i]
      refine rsum_congr _ _ _ fun t ht => ?_
      rw [List.getD_append _ _ _ _ ht]
    · subst hj
      have hgetlast : (basis ++ [newEntry nel basis k v zf]).getD basis.length dfltEntry
          = newEntry nel basis k v zf := by
        rw [List.getD_append_right _ _ _ _ (Nat.le_refl _), Nat.sub_self]
        rfl
      rw [hgetlast, hm, rsum_succ]
      have hlast : (newEntry nel basis k v zf).exprO basis.length
          * ((basis ++ [newEntry nel basis k v zf]).getD basis.length dfltEntry).orig i
          = v i := by
        rw [hgetlast]
        show (if basis.length = basis.length then (1:ℚ) else _)
            * (newEntry nel basis k v zf).orig i = v i
        rw [if_pos rfl, one_mul]
        rfl
      rw [hlast]
      have hred : (newEntry nel basis k v zf).red i = (reduceRow basis v).1 i := rfl
      rw [hred]
      have h1 := reduceRow_eq basis v i
      have h2 : (List.zipWith (fun c e => c * e.red i) (reduceRow basis v).2 basis).sum
          = rsum basis.length fun j =>
              (reduceRow basis v).2.getD j 0 * (basis.getD j dfltEntry).red i :=
        zipSum_eq_rsum _ _ _ (reduceRow_length basis v)
      have h3 : rsum basis.length (fun j =>
            (reduceRow basis v).2.getD j 0 * (basis.getD j dfltEntry).red i)
          = rsum basis.length fun t =>
              (rsum basis.length fun j =>
                (reduceRow basis v).2.getD j 0 * (basis.getD j dfltEntry).exprO t)
              * (basis.getD t dfltEntry).orig i := by
        rw [← rsum_swap_mul]
        refine rsum_congr _ _ _ fun j hj => ?_
        rw [hg.expr j i]
      have h4 : rsum basis.length (fun t =>
            (newEntry nel basis k v zf).exprO t
              * ((basis ++ [newEntry nel basis k v zf]).getD t dfltEntry).orig i)
          = rsum basis.length fun t =>
              -((rsum basis.length fun j =>
                  (reduceRow basis v).2.getD j 0 * (basis.getD j dfltEntry).exprO t)
                * (basis.getD t dfltEntry).orig i) := by
        refine rsum_congr _ _ _ fun t ht => ?_
        rw [List.getD_append _ _ _ _ ht]
        show (if t = basis.length then (1:ℚ) else _) * _ = _
        rw [if_neg (Nat.ne_of_lt ht), neg_mul]
      rw [h4, rsum_neg, ← h3, ← h2]
      linarith
    · have hd1 : (basis ++ [newEntry nel basis k v zf]).getD j dfltEntry = dfltEntry := by
        refine List.getD_eq_default _ _ ?_
        rw [hm]
        omega
      rw [hd1]
      show (0:ℚ) = _
      rw [rsum_congr _ _ (fun _ => 0) fun t ht => by
        show dfltEntry.exprO t * _ = 0
        show (0:ℚ) * _ = 0
        ring]
      rw [rsum_zero_fun _ _ fun _ _ => rfl]
  · intro j t hjt
    rcases Nat.lt_trichotomy j basis.length with hj | hj | hj
    · rw [List.getD_append _ _ _ _ hj]
      exact hg.expr_support j t hjt
    · subst hj
      have hgetlast : (basis ++ [newEntry nel basis k v zf]).getD basis.length dfltEntry
          = newEntry nel basis k v zf := by
        rw [List.getD_append_right _ _ _ _ (Nat.le_refl _), Nat.sub_self]
        rfl
      rw [hgetlast]
      show (if t = basis.length then (1:ℚ) else _) = 0
      rw [if_neg (by omega)]
      rw [rsum_zero_fun _ _ fun j2 hj2 => by
        rw [hg.expr_support j2 t (by omega)]
        ring]
      ring
    · have hd1 : (basis ++ [newEntry nel basis k v zf]).getD j dfltEntry = dfltEntry := by
        refine List.getD_eq_default _ _ ?_
        rw [hm]
        omega
      rw [hd1]
      rfl

/-- The selection pass only appends to the basis. -/
theorem selectBasisAux_extends (nel : Nat) (cands : List (Nat × (Nat → ℚ) × Bool)) :
    ∀ basis, ∃ ext, selectBasisAux nel basis cands = basis ++ ext := by
  induction cands with
  | nil =>
    intro basis
    exact ⟨[], by simp [selectBasisAux]⟩
  | cons hd rest ih =>
    intro basis
    obtain ⟨k, v, zf⟩ := hd
    rcases hz : isZeroOn nel (reduceRow basis v).1 with _ | _
    · obtain ⟨ext2, hext2⟩ := ih (basis ++ [newEntry nel basis k v zf])
      refine ⟨[newEntry nel basis k v zf] ++ ext2, ?_⟩
      simp only [selectBasisAux, hz, Bool.false_eq_true, if_false]
      rw [hext2, List.append_assoc]
    · obtain ⟨ext2, hext2⟩ := ih basis
      exact ⟨ext2, by simp only [selectBasisAux, hz, if_true]; exact hext2⟩

/-- The selection pass preserves the basis invariant. -/
theorem selectBasisAux_good (nel : Nat) (cands : List (Nat × (Nat → ℚ) × Bool)) :
    ∀ basis, GoodBasis nel basis → GoodBasis nel (selectBasisAux nel basis cands) := by
  induction cands with
  | nil =>
    intro basis hg
    simpa [selectBasisAux] using hg
  | cons hd rest ih =>
    intro basis hg
    obtain ⟨k, v, zf⟩ := hd
    rcases hz : isZeroOn nel (reduceRow basis v).1 with _ | _
    · simp only [selectBasisAux, hz, Bool.false_eq_true, if_false]
      exact ih _ (goodBasis_append nel basis hg k v zf hz)
    · simp only [selectBasisAux, hz, if_true]
      exact ih basis hg

/-- Every entry of the final basis is an initial entry or was built
from one of the candidates, keeping its species index, column and
zero-moles flag. -/
theorem selectBasisAux_mem (nel : Nat) (cands : List (Nat × (Nat → ℚ) × Bool)) :
    ∀ basis e, e ∈ selectBasisAux nel basis cands →
      e ∈ basis ∨ ∃ c ∈ cands, e.spIdx = c.1 ∧ e.orig = c.2.1 ∧ e.zeroMoles = c.2.2 := by
  induction cands with
  | nil =>
    intro basis e he
    simp only [selectBasisAux] at he
    exact Or.inl he
  | cons hd rest ih =>
    intro basis e he
    obtain ⟨k, v, zf⟩ := hd
    rcases hz : isZeroOn nel (reduceRow basis v).1 with _ | _
    · simp only [selectBasisAux, hz, Bool.false_eq_true, if_false] at he
      rcases ih _ e he with hin | ⟨c, hc, hprops⟩
      · rcases List.mem_append.mp hin with hin2 | hin2
        · exact Or.inl hin2
        · refine Or.inr ⟨(k, v, zf), List.mem_cons_self _ _, ?_⟩
          rw [List.mem_singleton.mp hin2]
          exact ⟨rfl, rfl, rfl⟩
      · exact Or.inr ⟨c, List.mem_cons_of_mem _ hc, hprops⟩
    · simp only [selectBasisAux, hz, if_true] at he
      rcases ih basis e he with hin | ⟨c, hc, hprops⟩
      · exact Or.inl hin
      · exact Or.inr ⟨c, List.mem_cons_of_mem _ hc, hprops⟩

/-- Completeness of the selection pass: every candidate either became a
component of the final basis or its column reduces to element-zero
against the final basis. -/
theorem selectBasisAux_complete (nel : Nat) (cands : List (Nat × (Nat → ℚ) × Bool)) :
    ∀ basis, GoodBasis nel basis → ∀ c ∈ cands,
      (∃ e ∈ selectBasisAux nel basis cands, e.spIdx = c.1 ∧ e.orig = c.2.1) ∨
      isZeroOn nel (reduceRow (selectBasisAux nel basis cands) c.2.1).1 = true := by
  induction cands with
  | nil =>
    intro basis _ c hc
    simp at hc
  | cons hd rest ih =>
    intro basis hg c hc
    obtain ⟨k, v, zf⟩ := hd
    rcases List.mem_cons.mp hc with rfl | hc2
    · rcases hz : isZeroOn nel (reduceRow basis v).1 with _ | _
      · left
        simp only [selectBasisAux, hz, Bool.false_eq_true, if_false]
        obtain ⟨ext, hext⟩ := selectBasisAux_extends nel rest
          (basis ++ [newEntry nel basis k v zf])
        refine ⟨newEntry nel basis k v zf, ?_, rfl, rfl⟩
        rw [hext, List.append_assoc]
        exact List.mem_append_right basis
          (List.mem_append_left ext (List.mem_singleton_self _))
      · right
        simp only [selectBasisAux, hz, if_true]
        obtain ⟨ext, hext⟩ := selectBasisAux_extends nel rest basis
        have hgood : GoodBasis nel (selectBasisAux nel basis rest) :=
          selectBasisAux_good nel rest basis hg
        have hz2 : ∀ i, i < nel → (reduceRow basis v).1 i = 0 := (isZeroOn_iff _ _).mp hz
        rw [hext, reduceRow_append,
          reduceRow_zero_stable nel ((reduceRow basis v).1) hz2 ext fun e he =>
            hgood.piv_lt e (by rw [hext]; exact List.mem_append_right basis he)]
        exact hz
    · rcases hz : isZeroOn nel (reduceRow basis v).1 with _ | _
      · simp only [selectBasisAux, hz, Bool.false_eq_true, if_false]
        exact ih _ (goodBasis_append nel basis hg k v zf hz) c hc2
      · simp only [selectBasisAux, hz, if_true]
        exact ih basis hg c hc2

/-- The formation-reaction coefficients of a column over the component
basis: the eliminated multiples combined through each component's
stored expression over the original columns. -/
def formCoeffs (basis : List BasisEntry) (v : Nat → ℚ) : Nat → ℚ := fun t =>
  rsum basis.length fun j =>
    (reduceRow basis v).2.getD j 0 * (basis.getD j dfltEntry).exprO t

/-- Round trip of the basis transform: a column that reduces to
element-zero is exactly the `formCoeffs` combination of the components'
original columns, at every element index. -/
theorem formCoeffs_correct (nel : Nat) (basis : List BasisEntry) (v : Nat → ℚ)
    (hg : GoodBasis nel basis)
    (hz : isZeroOn nel (reduceRow basis v).1 = true) :
    ∀ i, i < nel →
      v i = rsum basis.length fun t =>
        formCoeffs basis v t * (basis.getD t dfltEntry).orig i := by
  intro i hi
  have h1 := reduceRow_eq basis v i
  rw [(isZeroOn_iff _ _).mp hz i hi, zero_add] at h1
  rw [h1, zipSum_eq_rsum _ _ _ (reduceRow_length basis v)]
  calc rsum basis.length (fun j =>
          (reduceRow basis v).2.getD j 0 * (basis.getD j dfltEntry).red i)
      = rsum basis.length (fun j => (reduceRow basis v).2.getD j 0
          * rsum basis.length fun t =>
              (basis.getD j dfltEntry).exprO t * (basis.getD t dfltEntry).orig i) :=
        rsum_congr _ _ _ fun j _ => by rw [hg.expr j i]
    _ = rsum basis.length (fun t =>
          (rsum basis.length fun j =>
            (reduceRow basis v).2.getD j 0 * (basis.getD j dfltEntry).exprO t)
          * (basis.getD t dfltEntry).orig i) := rsum_swap_mul _ _ _ _
    _ = rsum basis.length (fun t =>
          formCoeffs basis v t * (basis.getD t dfltEntry).orig i) := rfl

/-- A basis in staircase form has at most `nel` entries: its pivots are
distinct element indices below `nel`. -/
theorem goodBasis_length_le (nel : Nat) (basis : List BasisEntry)
    (hg : GoodBasis nel basis) : basis.length ≤ nel := by
  have hpw : List.Pairwise (fun a b : BasisEntry => a.piv ≠ b.piv) basis := by
    refine List.Pairwise.imp_of_mem ?_ hg.stair
    intro a b _ hb hR heq
    exact hg.red_piv b hb (heq ▸ hR)
  have hnd : (basis.map BasisEntry.piv).Nodup :=
    List.Pairwise.map BasisEntry.piv (fun a b h => h) hpw
  have hsub : (basis.map BasisEntry.piv) ⊆ List.range nel := by
    intro x hx
    obtain ⟨e, he, rfl⟩ := List.mem_map.mp hx
    exact List.mem_range.mpr (hg.piv_lt e he)
  have hle := (List.subperm_of_subset hnd hsub).length_le
  rw [List.length_map, List.length_range] at hle
  exact hle

/-- The atom column of global species `k`: its atom count for each
global element index. -/
def speciesColumn (mp : MultiPhase) (k : Nat) : Nat → ℚ := fun m => mp.atomsAt m k

/-- Modelled from the spec: the pivot-candidacy order of the basis
optimizer (spec 4.2): species with nonzero current moles first, zeroed
species excluded from candidacy until needed (they follow, and are
flagged); within each class lowest species index first — the spec
leaves the exact pivot tie-break open and asks for a documented
deterministic rule. -/
def candidateOrder (mp : MultiPhase) : List Nat :=
  (List.range mp.nSpecies).filter (fun k => decide (mp.speciesMoles k ≠ 0))
    ++ (List.range mp.nSpecies).filter fun k => !(decide (mp.speciesMoles k ≠ 0))

/-- The candidate list handed to the selection pass: species index,
atom column, zero-moles flag. -/
def candsOf (mp : MultiPhase) : List (Nat × (Nat → ℚ) × Bool) :=
  (candidateOrder mp).map fun k =>
    (k, speciesColumn mp k, decide (mp.speciesMoles k = 0))

/-- The component basis the optimizer selects for a mixture. -/
def basisOf (mp : MultiPhase) : List BasisEntry :=
  selectBasisAux mp.nElements [] (candsOf mp)

/-- The outputs of `BasisOptimize`: the number of components actually
used, whether a zeroed species had to be used as a component, the
species and element reorderings (components first), and — when
requested — the formation-reaction matrix. -/
structure BasisResult where
  nComponents : Nat
  usedZeroedSpecies : Bool
  orderVectorSpecies : List Nat
  orderVectorElements : List Nat
  formRxnMatrix : Nat → Nat → ℚ

/-- Modelled from the spec: `BasisOptimize` (spec 4.2): selects a
well-conditioned independent subset of species as components by
Gaussian-elimination-style reduction in pivot-priority order, reorders
species and elements so components (and their pivot elements) come
first, reports whether any zeroed species was used, and — when
`doFormRxn` is set — computes each non-component species' formation
reaction over the component basis. -/
def BasisOptimize (mp : MultiPhase) (doFormRxn : Bool) : BasisResult :=
  { nComponents := (basisOf mp).length
    usedZeroedSpecies := (basisOf mp).any BasisEntry.zeroMoles
    orderVectorSpecies := (basisOf mp).map BasisEntry.spIdx
      ++ (List.range mp.nSpecies).filter fun k =>
          !(((basisOf mp).map BasisEntry.spIdx).contains k)
    orderVectorElements := (basisOf mp).map BasisEntry.piv
      ++ (List.range mp.nElements).filter fun m2 =>
          !(((basisOf mp).map BasisEntry.piv).contains m2)
    formRxnMatrix :=
      if doFormRxn then fun k => formCoeffs (basisOf mp) (speciesColumn mp k)
      else fun _ _ => 0 }

/-- The selected basis satisfies the invariant. -/
theorem basisOf_good (mp : MultiPhase) : GoodBasis mp.nElements (basisOf mp) :=
  selectBasisAux_good mp.nElements (candsOf mp) [] (goodBasis_nil mp.nElements)

/-- Every selected component's stored column is the atom column of its
species. -/
theorem basisOf_orig (mp : MultiPhase) :
    ∀ e ∈ basisOf mp, e.orig = speciesColumn mp e.spIdx := by
  intro e he
  rcases selectBasisAux_mem mp.nElements (candsOf mp) [] e he with hin | ⟨c, hc, h1, h2, _⟩
  · simp at hin
  · obtain ⟨k2, _, rfl⟩ := List.mem_map.mp hc
    rw [h2, h1]

/-- The first `nComponents` entries of the species reordering are the
selected components' species indices. -/
theorem BasisOptimize_components (mp : MultiPhase) (doFormRxn : Bool) :
    (BasisOptimize mp doFormRxn).orderVectorSpecies.take
        (BasisOptimize mp doFormRxn).nComponents
      = (basisOf mp).map BasisEntry.spIdx := by
  show (((basisOf mp).map BasisEntry.spIdx) ++ _).take ((basisOf mp).length) = _
  exact List.take_left' (List.length_map _ _)

/-- C6: `BasisOptimize` uses at most `nElements()` components, and the
formation-reaction matrix, multiplied against the component atom
sub-matrix, reproduces each non-component species' original atom-count
vector exactly: for every species `k` not among the selected components
and every element `i`, summing each component's atom count weighted by
the formation coefficient of `k` gives back `nAtoms` of `k`. -/
theorem BasisOptimize_spec (mp : MultiPhase) :
    (BasisOptimize mp true).nComponents ≤ mp.nElements ∧
    (∀ k, k < mp.nSpecies →
      k ∉ (BasisOptimize mp true).orderVectorSpecies.take
            (BasisOptimize mp true).nComponents →
      ∀ i, i < mp.nElements →
        ((List.range (BasisOptimize mp true).nComponents).map fun j =>
            (BasisOptimize mp true).formRxnMatrix k j
              * mp.atomsAt i ((BasisOptimize mp true).orderVectorSpecies.getD j 0)).sum
          = mp.atomsAt i k) := by
  constructor
  · exact goodBasis_length_le mp.nElements (basisOf mp) (basisOf_good mp)
  · intro k hk hnot i hi
    rw [BasisOptimize_components mp true] at hnot
    have hkcand : k ∈ candidateOrder mp := by
      refine (List.filter_append_perm _ (List.range mp.nSpecies)).mem_iff.mpr ?_
      exact List.mem_range.mpr hk
    have hc : (k, speciesColumn mp k, decide (mp.speciesMoles k = 0)) ∈ candsOf mp :=
      List.mem_map.mpr ⟨k, hkcand, rfl⟩
    rcases selectBasisAux_complete mp.nElements (candsOf mp) []
        (goodBasis_nil mp.nElements) _ hc with ⟨e, he, hsp, _⟩ | hz
    · exact absurd (List.mem_map.mpr ⟨e, he, hsp⟩) hnot
    · have hform := formCoeffs_correct mp.nElements (basisOf mp) (speciesColumn mp k)
        (basisOf_good mp) hz i hi
      have hsum : ((List.range (BasisOptimize mp true).nComponents).map fun j =>
            (BasisOptimize mp true).formRxnMatrix k j
              * mp.atomsAt i ((BasisOptimize mp true).orderVectorSpecies.getD j 0)).sum
          = rsum (basisOf mp).length fun j =>
              formCoeffs (basisOf mp) (speciesColumn mp k) j
                * mp.atomsAt i ((BasisOptimize mp true).orderVectorSpecies.getD j 0) := rfl
      rw [hsum]
      have hcongr : ∀ j, j < (basisOf mp).length →
          formCoeffs (basisOf mp) (speciesColumn mp k) j
              * mp.atomsAt i ((BasisOptimize mp true).orderVectorSpecies.getD j 0)
            = formCoeffs (basisOf mp) (speciesColumn mp k) j
              * ((basisOf mp).getD j dfltEntry).orig i := by
        intro j hj
        have hjm : j < ((basisOf mp).map BasisEntry.spIdx).length := by
          rwa [List.length_map]
        have hord : (BasisOptimize mp true).orderVectorSpecies.getD j 0
            = ((basisOf mp).getD j dfltEntry).spIdx := by
          show (((basisOf mp).map BasisEntry.spIdx) ++ _).getD j 0 = _
          rw [List.getD_append _ _ _ _ hjm, List.getD_eq_getElem _ _ hjm,
            List.getElem_map, List.getD_eq_getElem _ _ hj]
        have horig : ((basisOf mp).getD j dfltEntry).orig
            = speciesColumn mp (((basisOf mp).getD j dfltEntry).spIdx) := by
          refine basisOf_orig mp _ ?_
          rw [List.getD_eq_getElem _ _ hj]
          exact List.getElem_mem hj
        rw [hord, horig]
        rfl
      rw [rsum_congr _ _ _ hcongr, ← hform]
      rfl

/-- A concrete phase with two species over one element, both with one
atom of it, so the second species is dependent on the first. -/
def phV : ThermoPhase :=
  { speciesNames := ["A", "B"]
    elementNames := ["E"]
    atoms := [[1], [1]]
    stoich := false
    tMin := 100
    tMax := 2000
    moleFractions := [1, 1]
    chemPotentials := [0, 0]
    stdChemPotentials := [0, 0] }

/-- A concrete initialized mixture for exercising the basis optimizer:
two species, one element, both species present with nonzero moles. -/
def mpV : MultiPhase :=
  { m_phase := [phV]
    m_moles := [1]
    m_moleFractions := [1, 1]
    m_spphase := [0, 0]
    m_spstart := [0]
    m_enames := ["E"]
    m_snames := ["A", "B"]
    m_atoms := [[1, 1]]
    m_np := 1
    m_nel := 1
    m_nsp := 2
    m_temp := 300
    m_press := 101325
    m_init := true
    m_temp_OK := [true]
    m_Tmin := 100
    m_Tmax := 2000 }

/-- C6 witness: on the concrete mixture, species `B` (index 1) is not a
component, and its formation reaction over the component basis (species
`A`) reproduces its atom-count vector. -/
theorem BasisOptimize_spec_witness :
    ((List.range (BasisOptimize mpV true).nComponents).map fun j =>
        (BasisOptimize mpV true).formRxnMatrix 1 j
          * mpV.atomsAt 0 ((BasisOptimize mpV true).orderVectorSpecies.getD j 0)).sum
      = mpV.atomsAt 0 1 := by
  refine (BasisOptimize_spec mpV).2 1 (by decide) ?_ 0 (by decide)
  rw [BasisOptimize_components mpV true]
  rw [show (basisOf mpV).map BasisEntry.spIdx = [0] from by
    norm_num [basisOf, candsOf, candidateOrder, selectBasisAux, reduceRow, isZeroOn,
      pivotOf, MultiPhase.speciesMoles, MultiPhase.moleFraction, MultiPhase.phaseMoles,
      MultiPhase.speciesPhaseIndex, speciesColumn, MultiPhase.atomsAt, mpV, phV, newEntry,
      MultiPhase.nSpecies, MultiPhase.nElements, List.range_succ, List.filter]]
  decide

end Cantera
